import Mathlib

/-!
Verification of the MRM reproducible-research extraction pipeline.

Shallow embedding of the Python scripts under `scripts/`:
  * `sort_mrm_pdfs_by_acceptance_and_build_workbook.py`
    (text normalizer, DOI extractor, accepted-date parser, gender
    inference, month-sheet routing),
  * `scan_keywords_update_workbook.py`
    (keyword scanner, workbook index, DOI/row matching, log statuses),
  * `add_affiliation_country_from_pdfs.py`
    (country lexicon and inference, second DOI extractor).

Strings are modelled as `List Char`.  Regular-expression searches of the
scripts are embedded operationally (leftmost search position, greedy
sub-matches with the backtracking the concrete patterns allow), and the
external collaborators (PDF text extraction, the `pycountry` registry,
the statistical gender detector, the Genderize service) are modelled as
explicit parameters, mirroring the spec's external-interface section.
-/

set_option maxHeartbeats 1000000
set_option maxRecDepth 4000

namespace MRM

/-! ### Character classes

`isPySpace` models Python's `str`-mode `\s` / `str.strip` whitespace
(the Unicode whitespace code points). `isWordChar` models `\w` for the
ASCII texts handled here, `Char.isAlpha` models `[A-Za-z]`,
`Char.isDigit` models `\d`. -/

def isPySpace (c : Char) : Bool :=
  c == ' ' || c == '\t' || c == '\n' || c == '\r' || c == '\x0b' || c == '\x0c' ||
  c == '\x1c' || c == '\x1d' || c == '\x1e' || c == '\x1f' || c == '\x85' || c == '\u00A0' ||
  c == '\u1680' || c == '\u2000' || c == '\u2001' || c == '\u2002' || c == '\u2003' ||
  c == '\u2004' || c == '\u2005' || c == '\u2006' || c == '\u2007' || c == '\u2008' ||
  c == '\u2009' || c == '\u200A' || c == '\u2028' || c == '\u2029' || c == '\u202F' ||
  c == '\u205F' || c == '\u3000'

def isWordChar (c : Char) : Bool :=
  c.isAlphanum || c == '_'

def lowerL (s : List Char) : List Char :=
  s.map Char.toLower

/-- `startsWithL pre s`: `pre` is a leading segment of `s`. -/
def startsWithL : List Char → List Char → Bool
  | [], _ => true
  | _ :: _, [] => false
  | a :: as, b :: bs => a == b && startsWithL as bs

/-- Python's substring test `needle in hay`. -/
def containsSub (needle : List Char) : List Char → Bool
  | [] => needle.isEmpty
  | c :: cs => startsWithL needle (c :: cs) || containsSub needle cs

/-- Python `str.strip()`. -/
def pyStrip (s : List Char) : List Char :=
  ((s.dropWhile isPySpace).reverse.dropWhile isPySpace).reverse

/-! ### `normalize_text_for_dates` (sort_mrm_pdfs..., lines 125-139)

```
t = text.replace(NBSP, " ").replace(TAB, " ")
t = re.sub(r"\s+", " ", t)
t = re.sub(r"(\d)([A-Za-z])", r"\1 \2", t)
t = re.sub(r"([A-Za-z])(\d)", r"\1 \2", t)
return t.strip()
```
-/

/-- `re.sub(r"\s+", " ", t)`: every maximal whitespace run becomes one
plain space.  The flag records whether the previous input char was part
of a whitespace run already replaced. -/
def collapseWsAux : Bool → List Char → List Char
  | _, [] => []
  | true, c :: cs =>
    if isPySpace c then collapseWsAux true cs else c :: collapseWsAux false cs
  | false, c :: cs =>
    if isPySpace c then ' ' :: collapseWsAux true cs else c :: collapseWsAux false cs

def collapseWs (s : List Char) : List Char :=
  collapseWsAux false s

/-- `re.sub` for a two-character pattern `(p)(q) -> p SPACE q`, scanning
left to right over non-overlapping matches and resuming after each
replacement, exactly like `re.sub(r"(\d)([A-Za-z])", r"\1 \2", t)`. -/
def insPair (p q : Char → Bool) : List Char → List Char
  | c :: d :: rest =>
    if p c && q d then c :: ' ' :: d :: insPair p q rest
    else c :: insPair p q (d :: rest)
  | l => l

def normalize_text_for_dates (s : List Char) : List Char :=
  if s.isEmpty then []
  else
    pyStrip (insPair Char.isAlpha Char.isDigit
      (insPair Char.isDigit Char.isAlpha
        (collapseWs
          ((s.map (fun c => if c == '\u00A0' then ' ' else c)).map
            (fun c => if c == '\t' then ' ' else c)))))

/-! ### Normalizer invariants (claim C7) -/

/-- Every whitespace character of `l` is the plain space. -/
def spacesOk (l : List Char) : Prop :=
  ∀ c ∈ l, isPySpace c = true → c = ' '

/-- Adjacency invariant of fully normalized text: no two adjacent
whitespace characters, no digit→letter adjacency, no letter→digit
adjacency. -/
def normAdj (a b : Char) : Prop :=
  ¬(isPySpace a = true ∧ isPySpace b = true) ∧
  ¬(a.isDigit = true ∧ b.isAlpha = true) ∧
  ¬(a.isAlpha = true ∧ b.isDigit = true)

theorem normAdj_symm : ∀ {a b : Char}, normAdj a b → normAdj b a := by
  intro a b ⟨h1, h2, h3⟩
  exact ⟨fun ⟨x, y⟩ => h1 ⟨y, x⟩, fun ⟨x, y⟩ => h3 ⟨y, x⟩, fun ⟨x, y⟩ => h2 ⟨y, x⟩⟩

theorem isPySpace_elim {c : Char} (h : isPySpace c = true) :
    c.isDigit = false ∧ c.isAlpha = false ∧ isWordChar c = false := by
  simp only [isPySpace, Bool.or_eq_true, beq_iff_eq] at h
  repeat' rcases h with h | rfl
  all_goals decide

theorem map_self {f : Char → Char} :
    ∀ l : List Char, (∀ c ∈ l, f c = c) → l.map f = l := by
  intro l h
  induction l with
  | nil => rfl
  | cons c cs ih =>
    simp only [List.map_cons, List.cons.injEq]
    exact ⟨h c (by simp), ih fun d hd => h d (by simp [hd])⟩

theorem spacesOk_collapseWsAux : ∀ (b : Bool) (l : List Char), spacesOk (collapseWsAux b l) := by
  intro b l
  induction l generalizing b with
  | nil => intro c hc; cases b <;> simp [collapseWsAux] at hc
  | cons c cs ih =>
    intro d hd hsp
    by_cases h : isPySpace c = true
    · cases b with
      | true =>
        rw [show collapseWsAux true (c :: cs) = collapseWsAux true cs from by
          simp [collapseWsAux, h]] at hd
        exact ih true d hd hsp
      | false =>
        rw [show collapseWsAux false (c :: cs) = ' ' :: collapseWsAux true cs from by
          simp [collapseWsAux, h]] at hd
        rcases List.mem_cons.mp hd with h' | h'
        · exact h'
        · exact ih true d h' hsp
    · have he : collapseWsAux b (c :: cs) = c :: collapseWsAux false cs := by
        cases b <;> simp [collapseWsAux, h]
      rw [he] at hd
      rcases List.mem_cons.mp hd with h' | h'
      · exact absurd (h' ▸ hsp) h
      · exact ih false d h' hsp

theorem head?_collapseWsAux_true :
    ∀ (l : List Char) (c : Char), (collapseWsAux true l).head? = some c → isPySpace c = false := by
  intro l
  induction l with
  | nil => intro c hc; simp [collapseWsAux] at hc
  | cons d ds ih =>
    intro c hc
    by_cases h : isPySpace d = true
    · rw [show collapseWsAux true (d :: ds) = collapseWsAux true ds from by
        simp [collapseWsAux, h]] at hc
      exact ih c hc
    · rw [show collapseWsAux true (d :: ds) = d :: collapseWsAux false ds from by
        simp [collapseWsAux, h]] at hc
      simp only [List.head?_cons, Option.some.injEq] at hc
      rw [← hc]
      exact Bool.not_eq_true _ ▸ h

theorem chain_collapseWsAux :
    ∀ (l : List Char) (b : Bool),
      List.Chain' (fun a b => ¬(isPySpace a = true ∧ isPySpace b = true)) (collapseWsAux b l) := by
  intro l
  induction l with
  | nil => intro b; cases b <;> simp [collapseWsAux]
  | cons c cs ih =>
    intro b
    by_cases h : isPySpace c = true
    · cases b with
      | true =>
        rw [show collapseWsAux true (c :: cs) = collapseWsAux true cs from by
          simp [collapseWsAux, h]]
        exact ih true
      | false =>
        rw [show collapseWsAux false (c :: cs) = ' ' :: collapseWsAux true cs from by
          simp [collapseWsAux, h]]
        rw [List.chain'_cons']
        refine ⟨?_, ih true⟩
        intro d hd ⟨_, hsp⟩
        rw [head?_collapseWsAux_true cs d hd] at hsp
        exact Bool.false_ne_true hsp
    · rw [show collapseWsAux b (c :: cs) = c :: collapseWsAux false cs from by
        cases b <;> simp [collapseWsAux, h]]
      rw [List.chain'_cons']
      refine ⟨?_, ih false⟩
      intro d _ ⟨hsp, _⟩
      exact h hsp

theorem collapseWsAux_eq_self :
    ∀ l : List Char, spacesOk l →
      List.Chain' (fun a b => ¬(isPySpace a = true ∧ isPySpace b = true)) l →
      collapseWsAux false l = l := by
  intro l
  induction l with
  | nil => intro _ _; rfl
  | cons c cs ih =>
    intro hsp hch
    have hih := ih (fun x hx => hsp x (by simp [hx])) (List.Chain'.tail hch)
    by_cases h : isPySpace c = true
    · have hc : c = ' ' := hsp c (by simp) h
      subst hc
      rw [show collapseWsAux false (' ' :: cs) = ' ' :: collapseWsAux true cs from by
        simp [collapseWsAux, h]]
      cases cs with
      | nil => rfl
      | cons d ds =>
        have hd : isPySpace d = false := by
          rcases (List.chain'_cons.mp hch) with ⟨hrel, _⟩
          by_contra hdm
          exact hrel ⟨h, Bool.not_eq_false _ ▸ hdm⟩
        rw [show collapseWsAux true (d :: ds) = d :: collapseWsAux false ds from by
          simp [collapseWsAux, hd]]
        rw [show collapseWsAux false (d :: ds) = d :: collapseWsAux false ds from by
          simp [collapseWsAux, hd]] at hih
        exact congrArg _ hih
    · rw [show collapseWsAux false (c :: cs) = c :: collapseWsAux false cs from by
        simp [collapseWsAux, h]]
      exact congrArg _ hih

theorem insPair_head? (p q : Char → Bool) :
    ∀ l : List Char, (insPair p q l).head? = l.head? := by
  intro l
  match l with
  | [] => rfl
  | [c] => rfl
  | c :: d :: rest =>
    by_cases h : (p c && q d) = true <;> simp [insPair, h]

theorem insPair_nonnil (p q : Char → Bool) (d : Char) (rest : List Char) :
    ∃ y ys, insPair p q (d :: rest) = y :: ys := by
  cases hins : insPair p q (d :: rest) with
  | nil =>
    have := insPair_head? p q (d :: rest)
    rw [hins] at this
    simp at this
  | cons y ys => exact ⟨y, ys, rfl⟩

theorem insPair_getLast? (p q : Char → Bool) :
    ∀ l : List Char, (insPair p q l).getLast? = l.getLast? := by
  intro l
  induction l using insPair.induct p q with
  | case1 c d rest hpq ih =>
    have e1 : insPair p q (c :: d :: rest) = c :: ' ' :: d :: insPair p q rest := by
      simp [insPair, hpq]
    cases rest with
    | nil => simp [insPair, hpq]
    | cons x xs =>
      obtain ⟨y, ys, hr⟩ := insPair_nonnil p q x xs
      calc (insPair p q (c :: d :: x :: xs)).getLast?
          = (c :: ' ' :: d :: insPair p q (x :: xs)).getLast? := by rw [e1]
        _ = (insPair p q (x :: xs)).getLast? := by
            rw [hr, List.getLast?_cons_cons, List.getLast?_cons_cons, List.getLast?_cons_cons]
        _ = (x :: xs).getLast? := ih
        _ = (c :: d :: x :: xs).getLast? := by
            rw [List.getLast?_cons_cons, List.getLast?_cons_cons]
  | case2 c d rest hpq ih =>
    have e2 : insPair p q (c :: d :: rest) = c :: insPair p q (d :: rest) := by
      simp [insPair, hpq]
    obtain ⟨y, ys, hr⟩ := insPair_nonnil p q d rest
    calc (insPair p q (c :: d :: rest)).getLast?
        = (c :: insPair p q (d :: rest)).getLast? := by rw [e2]
      _ = (insPair p q (d :: rest)).getLast? := by rw [hr, List.getLast?_cons_cons]
      _ = (d :: rest).getLast? := ih
      _ = (c :: d :: rest).getLast? := by rw [List.getLast?_cons_cons]
  | case3 l h =>
    cases l with
    | nil => rfl
    | cons c cs =>
      cases cs with
      | nil => rfl
      | cons d rest => exact (h c d rest rfl).elim

theorem alpha_not_digit (c : Char) (h : c.isAlpha = true) : c.isDigit = false := by
  by_contra hcon
  rw [Bool.not_eq_false] at hcon
  simp only [Char.isAlpha, Char.isUpper, Char.isLower, Char.isDigit, Bool.or_eq_true,
    Bool.and_eq_true, decide_eq_true_eq, ge_iff_le, UInt32.le_def, BitVec.le_def] at h hcon
  have e1 : (UInt32.toBitVec 65).toNat = 65 := rfl
  have e2 : (UInt32.toBitVec 90).toNat = 90 := rfl
  have e3 : (UInt32.toBitVec 97).toNat = 97 := rfl
  have e4 : (UInt32.toBitVec 122).toNat = 122 := rfl
  have e5 : (UInt32.toBitVec 48).toNat = 48 := rfl
  have e6 : (UInt32.toBitVec 57).toNat = 57 := rfl
  omega

theorem digit_not_alpha (c : Char) (h : c.isDigit = true) : c.isAlpha = false := by
  by_contra hcon
  rw [Bool.not_eq_false] at hcon
  rw [alpha_not_digit c hcon] at h
  exact Bool.false_ne_true h

theorem digit_not_space (c : Char) (h : c.isDigit = true) : isPySpace c = false := by
  by_contra hcon
  rw [Bool.not_eq_false] at hcon
  rw [(isPySpace_elim hcon).1] at h
  exact Bool.false_ne_true h

theorem alpha_not_space (c : Char) (h : c.isAlpha = true) : isPySpace c = false := by
  by_contra hcon
  rw [Bool.not_eq_false] at hcon
  rw [(isPySpace_elim hcon).2.1] at h
  exact Bool.false_ne_true h

theorem insPair_eq_self (p q : Char → Bool) :
    ∀ l : List Char, List.Chain' (fun a b => ¬(p a = true ∧ q b = true)) l →
      insPair p q l = l := by
  intro l
  induction l using insPair.induct p q with
  | case1 c d rest hpq ih =>
    intro hch
    rw [Bool.and_eq_true] at hpq
    exact absurd hpq (List.chain'_cons.mp hch).1
  | case2 c d rest hpq ih =>
    intro hch
    have e2 : insPair p q (c :: d :: rest) = c :: insPair p q (d :: rest) := by
      simp [insPair, hpq]
    rw [e2, ih (List.chain'_cons.mp hch).2]
  | case3 l h =>
    intro _
    cases l with
    | nil => rfl
    | cons c cs =>
      cases cs with
      | nil => rfl
      | cons d rest => exact (h c d rest rfl).elim

theorem insPair_chain_pq (p q : Char → Bool)
    (hdisj : ∀ c, q c = true → p c = false)
    (hpsp : p ' ' = false) (hqsp : q ' ' = false) :
    ∀ l : List Char, List.Chain' (fun a b => ¬(p a = true ∧ q b = true)) (insPair p q l) := by
  intro l
  induction l using insPair.induct p q with
  | case1 c d rest hpq ih =>
    have e1 : insPair p q (c :: d :: rest) = c :: ' ' :: d :: insPair p q rest := by
      simp [insPair, hpq]
    rw [Bool.and_eq_true] at hpq
    rw [e1, List.chain'_cons]
    refine ⟨fun hx => ?_, ?_⟩
    · rw [hqsp] at hx; exact Bool.false_ne_true hx.2
    rw [List.chain'_cons]
    refine ⟨fun hx => ?_, ?_⟩
    · rw [hpsp] at hx; exact Bool.false_ne_true hx.1
    rw [List.chain'_cons']
    refine ⟨fun y _ hx => ?_, ih⟩
    rw [hdisj d hpq.2] at hx
    exact Bool.false_ne_true hx.1
  | case2 c d rest hpq ih =>
    have e2 : insPair p q (c :: d :: rest) = c :: insPair p q (d :: rest) := by
      simp [insPair, hpq]
    rw [e2, List.chain'_cons']
    refine ⟨fun y hy hcon => ?_, ih⟩
    rw [insPair_head? p q (d :: rest)] at hy
    simp only [List.head?_cons, Option.mem_def, Option.some.injEq] at hy
    subst hy
    refine hpq ?_
    rw [Bool.and_eq_true]
    exact hcon
  | case3 l h =>
    cases l with
    | nil => exact List.chain'_nil
    | cons c cs =>
      cases cs with
      | nil => exact List.chain'_singleton c
      | cons d rest => exact (h c d rest rfl).elim

theorem insPair_chain_preserve (p q : Char → Bool) {S : Char → Char → Prop}
    (hS1 : ∀ a, p a = true → S a ' ') (hS2 : ∀ b, q b = true → S ' ' b) :
    ∀ l : List Char, List.Chain' S l → List.Chain' S (insPair p q l) := by
  intro l
  induction l using insPair.induct p q with
  | case1 c d rest hpq ih =>
    intro hch
    have e1 : insPair p q (c :: d :: rest) = c :: ' ' :: d :: insPair p q rest := by
      simp [insPair, hpq]
    rw [Bool.and_eq_true] at hpq
    rw [e1, List.chain'_cons]
    refine ⟨hS1 c hpq.1, ?_⟩
    rw [List.chain'_cons]
    refine ⟨hS2 d hpq.2, ?_⟩
    rw [List.chain'_cons']
    refine ⟨fun y hy => ?_, ih (List.Chain'.tail (List.Chain'.tail hch))⟩
    rw [insPair_head? p q rest] at hy
    exact (List.chain'_cons'.mp (List.Chain'.tail hch)).1 y hy
  | case2 c d rest hpq ih =>
    intro hch
    have e2 : insPair p q (c :: d :: rest) = c :: insPair p q (d :: rest) := by
      simp [insPair, hpq]
    rw [e2, List.chain'_cons']
    refine ⟨fun y hy => ?_, ih (List.Chain'.tail hch)⟩
    rw [insPair_head? p q (d :: rest)] at hy
    simp only [List.head?_cons, Option.mem_def, Option.some.injEq] at hy
    subst hy
    exact (List.chain'_cons.mp hch).1
  | case3 l h =>
    intro hch
    cases l with
    | nil => exact hch
    | cons c cs =>
      cases cs with
      | nil => exact hch
      | cons d rest => exact (h c d rest rfl).elim

theorem mem_insPair (p q : Char → Bool) :
    ∀ (l : List Char) (x : Char), x ∈ insPair p q l → x ∈ l ∨ x = ' ' := by
  intro l
  induction l using insPair.induct p q with
  | case1 c d rest hpq ih =>
    intro x hx
    rw [show insPair p q (c :: d :: rest) = c :: ' ' :: d :: insPair p q rest from by
      simp [insPair, hpq]] at hx
    simp only [List.mem_cons] at hx
    rcases hx with rfl | rfl | rfl | hx
    · exact Or.inl (by simp)
    · exact Or.inr rfl
    · exact Or.inl (by simp)
    · rcases ih x hx with h' | h'
      · exact Or.inl (by simp [h'])
      · exact Or.inr h'
  | case2 c d rest hpq ih =>
    intro x hx
    rw [show insPair p q (c :: d :: rest) = c :: insPair p q (d :: rest) from by
      simp [insPair, hpq]] at hx
    simp only [List.mem_cons] at hx
    rcases hx with rfl | hx
    · exact Or.inl (by simp)
    · rcases ih x hx with h' | h'
      · exact Or.inl (by simp [h'])
      · exact Or.inr h'
  | case3 l h =>
    intro x hx
    cases l with
    | nil => exact Or.inl hx
    | cons c cs =>
      cases cs with
      | nil => exact Or.inl hx
      | cons d rest => exact (h c d rest rfl).elim

theorem chain_dropWhile {S : Char → Char → Prop} (p : Char → Bool) :
    ∀ l : List Char, List.Chain' S l → List.Chain' S (l.dropWhile p) := by
  intro l
  induction l with
  | nil => intro h; exact h
  | cons c cs ih =>
    intro h
    rw [List.dropWhile_cons]
    by_cases hc : p c = true
    · rw [if_pos hc]; exact ih (List.Chain'.tail h)
    · rw [if_neg hc]; exact h

theorem head?_dropWhile_not (p : Char → Bool) :
    ∀ (l : List Char) (c : Char), (l.dropWhile p).head? = some c → p c = false := by
  intro l
  induction l with
  | nil => intro c hc; simp at hc
  | cons d ds ih =>
    intro c hc
    rw [List.dropWhile_cons] at hc
    by_cases hd : p d = true
    · rw [if_pos hd] at hc; exact ih c hc
    · rw [if_neg hd] at hc
      simp only [List.head?_cons, Option.some.injEq] at hc
      subst hc
      exact Bool.eq_false_iff.mpr hd

theorem getLast?_cons_ne (a : Char) (l : List Char) (h : l ≠ []) :
    (a :: l).getLast? = l.getLast? := by
  cases l with
  | nil => exact absurd rfl h
  | cons b bs => rw [List.getLast?_cons_cons]

theorem getLast?_dropWhile (p : Char → Bool) :
    ∀ (l : List Char) (c : Char), (l.dropWhile p).getLast? = some c → l.getLast? = some c := by
  intro l
  induction l with
  | nil => intro c hc; simp at hc
  | cons d ds ih =>
    intro c hc
    rw [List.dropWhile_cons] at hc
    by_cases hd : p d = true
    · rw [if_pos hd] at hc
      have hds : ds ≠ [] := by
        intro he
        subst he
        simp at hc
      rw [getLast?_cons_ne d ds hds]
      exact ih c hc
    · rw [if_neg hd] at hc; exact hc

theorem dropWhile_id_of_head (p : Char → Bool) (l : List Char)
    (h : ∀ c, l.head? = some c → p c = false) : l.dropWhile p = l := by
  cases l with
  | nil => rfl
  | cons c cs =>
    have := h c rfl
    simp [List.dropWhile_cons, this]

theorem mem_pyStrip (l : List Char) (x : Char) (h : x ∈ pyStrip l) : x ∈ l := by
  unfold pyStrip at h
  rw [List.mem_reverse] at h
  have h1 : x ∈ (l.dropWhile isPySpace).reverse :=
    List.Sublist.mem h (List.dropWhile_sublist _)
  rw [List.mem_reverse] at h1
  exact List.Sublist.mem h1 (List.dropWhile_sublist _)

theorem chain_pyStrip {S : Char → Char → Prop} (hsymm : ∀ a b, S a b → S b a)
    (l : List Char) (h : List.Chain' S l) : List.Chain' S (pyStrip l) := by
  unfold pyStrip
  have h1 : List.Chain' S (l.dropWhile isPySpace) := chain_dropWhile _ l h
  have h2 : List.Chain' S ((l.dropWhile isPySpace).reverse) := by
    rw [List.chain'_reverse]
    exact List.Chain'.imp (fun a b hab => hsymm a b hab) h1
  have h3 : List.Chain' S (((l.dropWhile isPySpace).reverse).dropWhile isPySpace) :=
    chain_dropWhile _ _ h2
  rw [List.chain'_reverse]
  exact List.Chain'.imp (fun a b hab => hsymm a b hab) h3

theorem pyStrip_head? (l : List Char) (c : Char) (h : (pyStrip l).head? = some c) :
    isPySpace c = false := by
  unfold pyStrip at h
  rw [List.head?_reverse] at h
  have h1 := getLast?_dropWhile isPySpace _ c h
  rw [List.getLast?_reverse] at h1
  exact head?_dropWhile_not isPySpace l c h1

theorem pyStrip_getLast? (l : List Char) (c : Char) (h : (pyStrip l).getLast? = some c) :
    isPySpace c = false := by
  unfold pyStrip at h
  rw [List.getLast?_reverse] at h
  exact head?_dropWhile_not isPySpace _ c h

theorem pyStrip_eq_self (l : List Char)
    (h1 : ∀ c, l.head? = some c → isPySpace c = false)
    (h2 : ∀ c, l.getLast? = some c → isPySpace c = false) : pyStrip l = l := by
  unfold pyStrip
  rw [dropWhile_id_of_head isPySpace l h1]
  rw [dropWhile_id_of_head isPySpace l.reverse
    (fun c hc => h2 c (by rwa [List.head?_reverse] at hc))]
  exact List.reverse_reverse l

theorem chain'_conj {S T : Char → Char → Prop} :
    ∀ l : List Char, List.Chain' S l → List.Chain' T l →
      List.Chain' (fun a b => S a b ∧ T a b) l := by
  intro l
  induction l with
  | nil => intro _ _; exact List.chain'_nil
  | cons c cs ih =>
    intro hs ht
    rw [List.chain'_cons'] at hs ht ⊢
    exact ⟨fun y hy => ⟨hs.1 y hy, ht.1 y hy⟩, ih hs.2 ht.2⟩

theorem spacesOk_insPair (p q : Char → Bool) (l : List Char) (h : spacesOk l) :
    spacesOk (insPair p q l) := by
  intro c hc hsp
  rcases mem_insPair p q l c hc with h' | h'
  · exact h c h' hsp
  · exact h'

theorem spacesOk_pyStrip (l : List Char) (h : spacesOk l) : spacesOk (pyStrip l) :=
  fun c hc hsp => h c (mem_pyStrip l c hc) hsp

/-- `normedForm l`: the shape invariant every output of
`normalize_text_for_dates` satisfies, and on which the normalizer is
the identity. -/
def normedForm (l : List Char) : Prop :=
  spacesOk l ∧ List.Chain' normAdj l ∧
  (∀ c, l.head? = some c → isPySpace c = false) ∧
  (∀ c, l.getLast? = some c → isPySpace c = false)

theorem normedForm_normalize (s : List Char) :
    normedForm (normalize_text_for_dates s) := by
  unfold normalize_text_for_dates
  by_cases hs : s.isEmpty
  · rw [if_pos hs]
    refine ⟨fun c hc _ => absurd hc (by simp), List.chain'_nil,
      fun c hc => by simp at hc, fun c hc => by simp at hc⟩
  · rw [if_neg hs]
    have hsp1 := spacesOk_collapseWsAux false
      ((s.map fun c => if c == '\u00A0' then ' ' else c).map fun c => if c == '\t' then ' ' else c)
    have hch1 := chain_collapseWsAux
      ((s.map fun c => if c == '\u00A0' then ' ' else c).map fun c => if c == '\t' then ' ' else c)
      false
    have hsp2 := spacesOk_insPair Char.isDigit Char.isAlpha _ hsp1
    have hch2 : List.Chain' (fun a b => ¬(isPySpace a = true ∧ isPySpace b = true))
        (insPair Char.isDigit Char.isAlpha
          (collapseWs ((s.map fun c => if c == '\u00A0' then ' ' else c).map
            fun c => if c == '\t' then ' ' else c))) := by
      refine insPair_chain_preserve _ _ ?_ ?_ _ hch1
      · intro a ha hx
        rw [digit_not_space a ha] at hx
        exact Bool.false_ne_true hx.1
      · intro b hb hx
        rw [alpha_not_space b hb] at hx
        exact Bool.false_ne_true hx.2
    have hdl2 := insPair_chain_pq Char.isDigit Char.isAlpha alpha_not_digit
      (by decide) (by decide)
      (collapseWs ((s.map fun c => if c == '\u00A0' then ' ' else c).map
        fun c => if c == '\t' then ' ' else c))
    have hsp3 := spacesOk_insPair Char.isAlpha Char.isDigit _ hsp2
    have hch3 : List.Chain' (fun a b => ¬(isPySpace a = true ∧ isPySpace b = true))
        (insPair Char.isAlpha Char.isDigit
          (insPair Char.isDigit Char.isAlpha
            (collapseWs ((s.map fun c => if c == '\u00A0' then ' ' else c).map
              fun c => if c == '\t' then ' ' else c)))) := by
      refine insPair_chain_preserve _ _ ?_ ?_ _ hch2
      · intro a ha hx
        rw [alpha_not_space a ha] at hx
        exact Bool.false_ne_true hx.1
      · intro b hb hx
        rw [digit_not_space b hb] at hx
        exact Bool.false_ne_true hx.2
    have hdl3 : List.Chain' (fun a b => ¬(a.isDigit = true ∧ b.isAlpha = true))
        (insPair Char.isAlpha Char.isDigit
          (insPair Char.isDigit Char.isAlpha
            (collapseWs ((s.map fun c => if c == '\u00A0' then ' ' else c).map
              fun c => if c == '\t' then ' ' else c)))) := by
      refine insPair_chain_preserve _ _ ?_ ?_ _ hdl2
      · intro a _ hx
        exact Bool.false_ne_true ((show Char.isAlpha ' ' = false from by decide) ▸ hx.2)
      · intro b _ hx
        exact Bool.false_ne_true ((show Char.isDigit ' ' = false from by decide) ▸ hx.1)
    have hld3 := insPair_chain_pq Char.isAlpha Char.isDigit digit_not_alpha
      (by decide) (by decide)
      (insPair Char.isDigit Char.isAlpha
        (collapseWs ((s.map fun c => if c == '\u00A0' then ' ' else c).map
          fun c => if c == '\t' then ' ' else c)))
    have hadj : List.Chain' normAdj
        (insPair Char.isAlpha Char.isDigit
          (insPair Char.isDigit Char.isAlpha
            (collapseWs ((s.map fun c => if c == '\u00A0' then ' ' else c).map
              fun c => if c == '\t' then ' ' else c)))) := by
      have := chain'_conj _ hch3 (chain'_conj _ hdl3 hld3)
      exact List.Chain'.imp (fun a b hx => hx) this
    exact ⟨spacesOk_pyStrip _ hsp3,
      chain_pyStrip (fun a b => normAdj_symm) _ hadj,
      fun c hc => pyStrip_head? _ c hc,
      fun c hc => pyStrip_getLast? _ c hc⟩

theorem normalize_fixpoint (l : List Char) (h : normedForm l) :
    normalize_text_for_dates l = l := by
  obtain ⟨hsp, hch, hh, hl⟩ := h
  unfold normalize_text_for_dates
  by_cases hemp : l.isEmpty
  · rw [if_pos hemp]
    exact (List.isEmpty_iff.mp hemp).symm
  · rw [if_neg hemp]
    have e0 : (l.map fun c => if c == '\u00A0' then ' ' else c) = l := by
      refine map_self l (fun c hc => ?_)
      by_cases hcn : c = '\u00A0'
      · exact absurd (hsp c hc (by rw [hcn]; decide)) (by rw [hcn]; decide)
      · simp [hcn]
    have e0t : (l.map fun c => if c == '\t' then ' ' else c) = l := by
      refine map_self l (fun c hc => ?_)
      by_cases hcn : c = '\t'
      · exact absurd (hsp c hc (by rw [hcn]; decide)) (by rw [hcn]; decide)
      · simp [hcn]
    have e1 : collapseWs l = l :=
      collapseWsAux_eq_self l hsp (List.Chain'.imp (fun a b hx => hx.1) hch)
    have e2 : insPair Char.isDigit Char.isAlpha l = l :=
      insPair_eq_self _ _ l (List.Chain'.imp (fun a b hx => hx.2.1) hch)
    have e3 : insPair Char.isAlpha Char.isDigit l = l :=
      insPair_eq_self _ _ l (List.Chain'.imp (fun a b hx => hx.2.2) hch)
    have e4 : pyStrip l = l := pyStrip_eq_self l hh hl
    rw [e0, e0t, e1, e2, e3, e4]

/-- Claim C7: the text normalizer `normalize_text_for_dates` is
idempotent — `normalize(normalize(x)) = normalize(x)` for every input —
it is a total function (hence never fails), and empty input yields
empty output. -/
theorem c7_normalizer_idempotent :
    (∀ x : List Char,
      normalize_text_for_dates (normalize_text_for_dates x) = normalize_text_for_dates x) ∧
    normalize_text_for_dates [] = [] :=
  ⟨fun x => normalize_fixpoint _ (normedForm_normalize x), rfl⟩

/-! ### DOI extraction

All three scripts share `DOI_RE = \b10\.\d{4,9}/[^\s<>\"']+\b`
(IGNORECASE is irrelevant: the pattern has no cased literal).  The
embedding mirrors the engine: leftmost search position; `\d{4,9}/`
forces the digit run between `10.` and `/` to have length 4..9; the
greedy `[^\s<>\"']+` followed by `\b` ends at the largest position of
the run where a word boundary holds. -/

def isDoiBodyChar (c : Char) : Bool :=
  !isPySpace c && c != '<' && c != '>' && c != '"' && c != '\x27'

def boundaryB (c : Char) (nxt : Option Char) : Bool :=
  match nxt with
  | none => isWordChar c
  | some d => isWordChar c != isWordChar d

/-- The character following the current one inside the run, or `after`
when the run is exhausted. -/
def headOr (cs : List Char) (after : Option Char) : Option Char :=
  match cs with
  | d :: _ => some d
  | [] => after

/-- End position of the greedy `[^\s<>\"']+\b` sub-match: the largest
`e ∈ [1, run.length]` with a word boundary between `run[e-1]` and the
following character (`run[e]`, or `after` past the run's end) — what
greedy `+` plus backtracking into `\b` produces. -/
def bodyEnd : List Char → Option Char → Option Nat
  | [], _ => none
  | c :: cs, after =>
    match bodyEnd cs after with
    | some e => some (e + 1)
    | none => if boundaryB c (headOr cs after) then some 1 else none

/-- `\d{4,9}/[^\s<>\"']+\b` against the text following `10.`: the digit
run must have length 4..9 and be followed directly by `/` (no shorter
`\d{4,9}` alternative can succeed, the next character would be a
digit); then the greedy body with its trailing boundary. -/
def doiTail (rest : List Char) : Option (List Char) :=
  let ds := rest.takeWhile Char.isDigit
  let rest1 := rest.dropWhile Char.isDigit
  if (decide (4 ≤ ds.length) && decide (ds.length ≤ 9)) && (rest1.head? == some '/') then
    let rest2 := rest1.tail
    let run := rest2.takeWhile isDoiBodyChar
    match bodyEnd run ((rest2.dropWhile isDoiBodyChar).head?) with
    | some e => some (ds ++ '/' :: run.take e)
    | none => none
  else none

/-- Attempt a `DOI_RE` match anchored at the start of `s` (the leading
`\b` is checked by the search loop). -/
def doiMatchAt (s : List Char) : Option (List Char) :=
  match s with
  | '1' :: '0' :: '.' :: rest => (doiTail rest).map (fun t => '1' :: '0' :: '.' :: t)
  | _ => none

def startBoundaryOk : Option Char → Bool
  | none => true
  | some p => !isWordChar p

/-- `re.search`: try the pattern at each position, left to right.
`prev` is the character before the current position, for the leading
`\b` of patterns whose first character is a word character. -/
def searchAux {α : Type} (f : List Char → Option α) : Option Char → List Char → Option α
  | _, [] => none
  | prev, c :: cs =>
    match (if startBoundaryOk prev then f (c :: cs) else none) with
    | some r => some r
    | none => searchAux f (some c) cs

def regexSearch {α : Type} (f : List Char → Option α) (s : List Char) : Option α :=
  searchAux f none s

/-- Python `str.rstrip(cut)`. -/
def rstripSet (s : List Char) (cut : List Char) : List Char :=
  (s.reverse.dropWhile (fun c => cut.contains c)).reverse

namespace SortPdfs

/-- `parse_doi` of `sort_mrm_pdfs_by_acceptance_and_build_workbook.py`
(lines 160-164): leftmost `DOI_RE` match, `rstrip(").,;]")`, then
lower-cased; `""` when absent. -/
def parse_doi (text : List Char) : List Char :=
  match regexSearch doiMatchAt text with
  | none => []
  | some m => lowerL (rstripSet m [')', '.', ',', ';', ']'])

end SortPdfs

namespace AffCountry

/-- `parse_doi` of `add_affiliation_country_from_pdfs.py` (lines
112-116): leftmost `DOI_RE` match lower-cased, no strip; `""` when the
input is falsy or there is no match. -/
def parse_doi (s : List Char) : List Char :=
  if s.isEmpty then []
  else
    match regexSearch doiMatchAt s with
    | none => []
    | some m => lowerL m

end AffCountry

namespace ScanKw

/-- `parse_doi_from_link` of `scan_keywords_update_workbook.py` (lines
136-142): leftmost `DOI_RE` match lower-cased; `""` when the input is
falsy or there is no match. -/
def parse_doi_from_link (link : List Char) : List Char :=
  if link.isEmpty then []
  else
    match regexSearch doiMatchAt link with
    | none => []
    | some m => lowerL m

end ScanKw

/-- The identifier contract exactly as the spec words it (§4.2): the
leftmost substring matching `"10." + 4-9 digits + "/" + one or more
characters of [^\s<>\"']` (greedy), trailing `).,;]` stripped from the
match, lower-cased.  It differs from `DOI_RE` in having no `\b`
anchors.  Used only to compare the spec's wording against the code. -/
def specContractMatchAt (s : List Char) : Option (List Char) :=
  match s with
  | '1' :: '0' :: '.' :: rest =>
    let ds := rest.takeWhile Char.isDigit
    if 4 ≤ ds.length ∧ ds.length ≤ 9 then
      match rest.dropWhile Char.isDigit with
      | '/' :: rest2 =>
        let run := rest2.takeWhile isDoiBodyChar
        if 1 ≤ run.length then some ('1' :: '0' :: '.' :: (ds ++ '/' :: run)) else none
      | _ => none
    else none
  | _ => none

def specSearchAux {α : Type} (f : List Char → Option α) : List Char → Option α
  | [] => none
  | c :: cs =>
    match f (c :: cs) with
    | some r => some r
    | none => specSearchAux f cs

def specIdentifierExtract (s : List Char) : List Char :=
  match specSearchAux specContractMatchAt s with
  | none => []
  | some m => lowerL (rstripSet m [')', '.', ',', ';', ']'])

theorem wordChar_isBody (c : Char) (h : isWordChar c = true) : isDoiBodyChar c = true := by
  have hsp : isPySpace c = false := by
    rw [isWordChar, Bool.or_eq_true] at h
    rcases h with h | h
    · rw [Char.isAlphanum, Bool.or_eq_true] at h
      rcases h with h | h
      · exact alpha_not_space c h
      · exact digit_not_space c h
    · rw [beq_iff_eq] at h; subst h; decide
  have h1 : c ≠ '<' := fun he => absurd (he ▸ h) (by decide)
  have h2 : c ≠ '>' := fun he => absurd (he ▸ h) (by decide)
  have h3 : c ≠ '"' := fun he => absurd (he ▸ h) (by decide)
  have h4 : c ≠ '\x27' := fun he => absurd (he ▸ h) (by decide)
  simp [isDoiBodyChar, hsp, h1, h2, h3, h4]

theorem bodyEnd_cons_some (c : Char) (cs : List Char) (after : Option Char) (e : Nat)
    (h : bodyEnd cs after = some e) : bodyEnd (c :: cs) after = some (e + 1) := by
  simp only [bodyEnd, h]

theorem bodyEnd_cons_none (c : Char) (cs : List Char) (after : Option Char)
    (h : bodyEnd cs after = none) :
    bodyEnd (c :: cs) after = if boundaryB c (headOr cs after) then some 1 else none := by
  simp only [bodyEnd, h]

theorem bodyEnd_le :
    ∀ (run : List Char) (after : Option Char) (e : Nat),
      bodyEnd run after = some e → 1 ≤ e ∧ e ≤ run.length := by
  intro run
  induction run with
  | nil => intro after e he; simp [bodyEnd] at he
  | cons c cs ih =>
    intro after e he
    cases hcs : bodyEnd cs after with
    | some e' =>
      rw [bodyEnd_cons_some c cs after e' hcs] at he
      simp only [Option.some.injEq] at he
      subst he
      obtain ⟨h1, h2⟩ := ih after e' hcs
      refine ⟨by omega, ?_⟩
      simp only [List.length_cons]
      omega
    | none =>
      rw [bodyEnd_cons_none c cs after hcs] at he
      split at he
      · simp only [Option.some.injEq] at he
        subst he
        refine ⟨le_refl 1, ?_⟩
        simp only [List.length_cons]
        omega
      · exact absurd he (by simp)

theorem bodyEnd_isSome (run : List Char) (after : Option Char)
    (hafter : ∀ c, after = some c → isWordChar c = false)
    (hmem : ∃ c ∈ run, isWordChar c = true) : (bodyEnd run after).isSome = true := by
  induction run with
  | nil => obtain ⟨c, hc, _⟩ := hmem; simp at hc
  | cons c cs ih =>
    cases hcs : bodyEnd cs after with
    | some e => rw [bodyEnd_cons_some c cs after e hcs]; rfl
    | none =>
      have hcs_no : ∀ x ∈ cs, isWordChar x = false := by
        intro x hx
        by_contra hxc
        rw [Bool.not_eq_false] at hxc
        have := ih ⟨x, hx, hxc⟩
        rw [hcs] at this
        simp at this
      obtain ⟨y, hy, hyw⟩ := hmem
      rcases List.mem_cons.mp hy with rfl | hy'
      · have hnxt : boundaryB y (headOr cs after) = true := by
          cases cs with
          | nil =>
            cases hae : after with
            | none => simp [boundaryB, headOr, hae, hyw]
            | some d => simp [boundaryB, headOr, hae, hyw, hafter d hae]
          | cons d ds => simp [boundaryB, headOr, hyw, hcs_no d (by simp)]
        rw [bodyEnd_cons_none y cs after hcs, if_pos hnxt]
        rfl
      · rw [hcs_no y hy'] at hyw
        exact absurd hyw Bool.false_ne_true

theorem bodyEnd_last_word (run : List Char) (after : Option Char)
    (hafter : ∀ c, after = some c → isWordChar c = false) :
    ∀ e, bodyEnd run after = some e →
      ∃ c, (run.take e).getLast? = some c ∧ isWordChar c = true := by
  induction run with
  | nil => intro e he; simp [bodyEnd] at he
  | cons c cs ih =>
    intro e he
    cases hcs : bodyEnd cs after with
    | some e' =>
      rw [bodyEnd_cons_some c cs after e' hcs] at he
      simp only [Option.some.injEq] at he
      subst he
      obtain ⟨x, hx1, hx2⟩ := ih e' hcs
      refine ⟨x, ?_, hx2⟩
      rw [List.take_succ_cons, getLast?_cons_ne]
      · exact hx1
      · intro hnil
        rw [hnil] at hx1
        simp at hx1
    | none =>
      rw [bodyEnd_cons_none c cs after hcs] at he
      split at he
      case isTrue hb =>
        simp only [Option.some.injEq] at he
        subst he
        refine ⟨c, by simp, ?_⟩
        by_contra hcw
        rw [Bool.not_eq_true] at hcw
        cases cs with
        | nil =>
          cases hae : after with
          | none =>
            rw [show headOr [] after = after from rfl, hae] at hb
            simp [boundaryB, hcw] at hb
          | some d =>
            rw [show headOr [] after = after from rfl, hae] at hb
            simp [boundaryB, hcw, hafter d hae] at hb
        | cons d ds =>
          have hdw : isWordChar d = true := by
            cases hd : isWordChar d with
            | true => rfl
            | false =>
              rw [show headOr (d :: ds) after = some d from rfl] at hb
              simp [boundaryB, hcw, hd] at hb
          have hsome := bodyEnd_isSome (d :: ds) after hafter ⟨d, by simp, hdw⟩
          rw [hcs] at hsome
          simp at hsome
      case isFalse => exact absurd he (by simp)

theorem searchAux_preserve {α : Type} (f : List Char → Option α) (P : α → Prop)
    (hf : ∀ s r, f s = some r → P r) :
    ∀ (s : List Char) (prev : Option Char) (r : α), searchAux f prev s = some r → P r := by
  intro s
  induction s with
  | nil => intro prev r hr; simp [searchAux] at hr
  | cons c cs ih =>
    intro prev r hr
    simp only [searchAux] at hr
    by_cases hsb : startBoundaryOk prev = true
    · rw [if_pos hsb] at hr
      cases hf' : f (c :: cs) with
      | some r' =>
        rw [hf'] at hr
        simp only [Option.some.injEq] at hr
        subst hr
        exact hf _ _ hf'
      | none =>
        rw [hf'] at hr
        exact ih (some c) r hr
    · rw [if_neg hsb] at hr
      exact ih (some c) r hr

theorem doiTail_last (rest : List Char) (t : List Char) (h : doiTail rest = some t) :
    ∃ c, t.getLast? = some c ∧ isWordChar c = true := by
  unfold doiTail at h
  by_cases hcond : ((decide (4 ≤ (rest.takeWhile Char.isDigit).length) &&
      decide ((rest.takeWhile Char.isDigit).length ≤ 9)) &&
      ((rest.dropWhile Char.isDigit).head? == some '/')) = true
  · rw [if_pos hcond] at h
    simp only [] at h
    cases hbe : bodyEnd (((rest.dropWhile Char.isDigit).tail).takeWhile isDoiBodyChar)
        ((((rest.dropWhile Char.isDigit).tail).dropWhile isDoiBodyChar).head?) with
    | none =>
      rw [hbe] at h
      exact absurd h (by simp)
    | some e =>
      rw [hbe] at h
      simp only [Option.some.injEq] at h
      subst h
      have hafter : ∀ c,
          ((((rest.dropWhile Char.isDigit).tail).dropWhile isDoiBodyChar).head? = some c) →
          isWordChar c = false := by
        intro c hc
        have hb := head?_dropWhile_not isDoiBodyChar ((rest.dropWhile Char.isDigit).tail) c hc
        by_contra hw
        rw [Bool.not_eq_false] at hw
        rw [wordChar_isBody c hw] at hb
        exact absurd hb (by simp)
      obtain ⟨x, hx1, hx2⟩ :=
        bodyEnd_last_word (((rest.dropWhile Char.isDigit).tail).takeWhile isDoiBodyChar)
          ((((rest.dropWhile Char.isDigit).tail).dropWhile isDoiBodyChar).head?)
          hafter e hbe
      refine ⟨x, ?_, hx2⟩
      have htk : ((((rest.dropWhile Char.isDigit).tail).takeWhile isDoiBodyChar).take e) ≠ [] := by
        intro hnil
        rw [hnil] at hx1
        simp at hx1
      rw [List.getLast?_append_cons, getLast?_cons_ne _ _ htk]
      exact hx1
  · rw [if_neg hcond] at h
    exact absurd h (by simp)

theorem doiMatchAt_last (s : List Char) (m : List Char) (h : doiMatchAt s = some m) :
    ∃ c, m.getLast? = some c ∧ isWordChar c = true := by
  unfold doiMatchAt at h
  split at h
  case h_2 => exact absurd h (by simp)
  case h_1 rest =>
    cases ht : doiTail rest with
    | none =>
      rw [ht] at h
      exact absurd h (by simp)
    | some t =>
      rw [ht] at h
      simp only [Option.map_some', Option.some.injEq] at h
      subst h
      obtain ⟨x, hx1, hx2⟩ := doiTail_last rest t ht
      refine ⟨x, ?_, hx2⟩
      have htn : t ≠ [] := by
        intro hnil
        rw [hnil] at hx1
        simp at hx1
      rw [getLast?_cons_ne _ _ (by simp), getLast?_cons_ne _ _ (by simp),
        getLast?_cons_ne _ _ htn]
      exact hx1

theorem wordChar_not_strip (c : Char) (h : isWordChar c = true) :
    ([')', '.', ',', ';', ']'].contains c) = false := by
  by_contra hcon
  rw [Bool.not_eq_false] at hcon
  have hmem : c ∈ [')', '.', ',', ';', ']'] := by
    have := List.elem_iff.mp hcon
    exact this
  fin_cases hmem <;> revert h <;> decide

theorem rstripSet_id (m : List Char) (cut : List Char) (c : Char)
    (hlast : m.getLast? = some c) (hnot : cut.contains c = false) :
    rstripSet m cut = m := by
  unfold rstripSet
  have hrev : m.reverse.head? = some c := by
    rw [List.head?_reverse]; exact hlast
  have hdrop := dropWhile_id_of_head (fun x => cut.contains x) m.reverse (by
    intro x hx
    rw [hrev] at hx
    simp only [Option.some.injEq] at hx
    subst hx
    exact hnot)
  rw [hdrop, List.reverse_reverse]

/-- Every `DOI_RE` search hit ends in a word character. -/
theorem doiSearch_last (s m : List Char) (h : regexSearch doiMatchAt s = some m) :
    ∃ c, m.getLast? = some c ∧ isWordChar c = true :=
  searchAux_preserve doiMatchAt _ doiMatchAt_last s none m h

/-- Claim C3 counterexample: on input `"10.1234/a-"` the repository's
DOI parser returns `"10.1234/a"` (the trailing `\b` of `DOI_RE` ends
the match at the last word character), whereas the claimed contract —
leftmost grammar match with only `).,;]` stripped — yields
`"10.1234/a-"`; the claim's description of the extractor is false at
this input. -/
theorem c3_contract_counterexample :
    SortPdfs.parse_doi (("10.1234/a-").data) = (("10.1234/a").data) ∧
    specIdentifierExtract (("10.1234/a-").data) = (("10.1234/a-").data) ∧
    SortPdfs.parse_doi (("10.1234/a-").data) ≠ specIdentifierExtract (("10.1234/a-").data) :=
  ⟨by decide, by decide, by decide⟩

/-- Claim C3 (amended): the three DOI-parsing functions of the
repository are pairwise equivalent, and the `rstrip(").,;]")` of
`SortPdfs.parse_doi` is a no-op on every `DOI_RE` match, because the
trailing word boundary makes every match end in a word character; each
returns the lower-cased leftmost `DOI_RE` match (with its `\b`
anchors), or `""` when there is none. -/
theorem c3_doi_parsers_equivalent :
    (∀ s : List Char,
      SortPdfs.parse_doi s = AffCountry.parse_doi s ∧
      SortPdfs.parse_doi s = ScanKw.parse_doi_from_link s) ∧
    (∀ s m : List Char, regexSearch doiMatchAt s = some m →
      rstripSet m [')', '.', ',', ';', ']'] = m) := by
  have hstrip : ∀ s m : List Char, regexSearch doiMatchAt s = some m →
      rstripSet m [')', '.', ',', ';', ']'] = m := by
    intro s m hm
    obtain ⟨c, hc1, hc2⟩ := doiSearch_last s m hm
    exact rstripSet_id m _ c hc1 (wordChar_not_strip c hc2)
  refine ⟨fun s => ⟨?_, ?_⟩, hstrip⟩
  · unfold SortPdfs.parse_doi AffCountry.parse_doi
    by_cases hemp : s.isEmpty
    · rw [if_pos hemp, List.isEmpty_iff.mp hemp]
      rfl
    · rw [if_neg hemp]
      cases hm : regexSearch doiMatchAt s with
      | none => rfl
      | some m =>
        show lowerL (rstripSet m [')', '.', ',', ';', ']']) = lowerL m
        rw [hstrip s m hm]
  · unfold SortPdfs.parse_doi ScanKw.parse_doi_from_link
    by_cases hemp : s.isEmpty
    · rw [if_pos hemp, List.isEmpty_iff.mp hemp]
      rfl
    · rw [if_neg hemp]
      cases hm : regexSearch doiMatchAt s with
      | none => rfl
      | some m =>
        show lowerL (rstripSet m [')', '.', ',', ';', ']']) = lowerL m
        rw [hstrip s m hm]

/-! ### Accepted-date parsing (sort_mrm_pdfs..., lines 88-113, 167-209)

The four patterns, searched in this fixed order on the normalized
text:
  1. `ACC_DMY      \bAccepted\b\s*:?\s*(\d{1,2})\s+([A-Za-z]+)\s+(\d{4})\b`
  2. `ACC_MDY      \bAccepted\b\s*:?\s*([A-Za-z]+)\s+(\d{1,2})(?:,)?\s+(\d{4})\b`
  3. `ACC_YMD_DASH \bAccepted\b\s*:?\s*(\d{4})-(\d{1,2})-(\d{1,2})\b`
  4. `ACC_DMY_SLASH \bAccepted\b\s*:?\s*(\d{1,2})/(\d{1,2})/(\d{4})\b`
`\d{1,2}` succeeds only on a digit run of length 1-2 followed by the
required delimiter (a shorter take leaves a digit next, which never
matches the delimiter), and `\d{4}` needs exactly 4 digits with the
trailing `\b` excluding a following word character. -/

def caselessLit : List Char → List Char → Option (List Char)
  | [], s => some s
  | _ :: _, [] => none
  | p :: ps, c :: cs => if c.toLower == p then caselessLit ps cs else none

def natOfDigits (ds : List Char) : Nat :=
  ds.foldl (fun n c => 10 * n + (c.toNat - ('0').toNat)) 0

def nonWordNext (s : List Char) : Bool :=
  match s.head? with
  | none => true
  | some c => !isWordChar c

def headIsSpace (s : List Char) : Bool :=
  match s.head? with
  | none => false
  | some c => isPySpace c

/-- `\bAccepted\b\s*:?\s*` at the current position (the leading `\b` is
the search loop's job). -/
def acceptedLead (s : List Char) : Option (List Char) :=
  match caselessLit (("accepted").data) s with
  | none => none
  | some s1 =>
    if nonWordNext s1 then
      let s2 := s1.dropWhile isPySpace
      let s3 := if s2.head? == some ':' then s2.tail else s2
      some (s3.dropWhile isPySpace)
    else none

/-- `(\d{1,2})` whose continuation cannot absorb a digit: the digit run
must have length exactly 1 or 2. -/
def digitRun12 (s : List Char) : Option (Nat × List Char) :=
  let ds := s.takeWhile Char.isDigit
  if ds.length == 1 || ds.length == 2 then some (natOfDigits ds, s.dropWhile Char.isDigit)
  else none

/-- `ACC_DMY` anchored at one position; groups `(day, monthWord, year)`. -/
def accDmyAt (s : List Char) : Option (Nat × List Char × Nat) :=
  match acceptedLead s with
  | none => none
  | some s4 =>
    match digitRun12 s4 with
    | none => none
    | some (d, s5) =>
      if headIsSpace s5 then
        let s6 := s5.dropWhile isPySpace
        let mon := s6.takeWhile Char.isAlpha
        let s7 := s6.dropWhile Char.isAlpha
        if !mon.isEmpty && headIsSpace s7 then
          let s8 := s7.dropWhile isPySpace
          let ys := s8.takeWhile Char.isDigit
          if ys.length == 4 && nonWordNext (s8.dropWhile Char.isDigit) then
            some (d, mon, natOfDigits ys)
          else none
        else none
      else none

/-- `ACC_MDY` anchored at one position; groups `(monthWord, day, year)`. -/
def accMdyAt (s : List Char) : Option (List Char × Nat × Nat) :=
  match acceptedLead s with
  | none => none
  | some s4 =>
    let mon := s4.takeWhile Char.isAlpha
    let s5 := s4.dropWhile Char.isAlpha
    if !mon.isEmpty && headIsSpace s5 then
      let s6 := s5.dropWhile isPySpace
      match digitRun12 s6 with
      | none => none
      | some (d, s7) =>
        let s8 := if s7.head? == some ',' then s7.tail else s7
        if headIsSpace s8 then
          let s9 := s8.dropWhile isPySpace
          let ys := s9.takeWhile Char.isDigit
          if ys.length == 4 && nonWordNext (s9.dropWhile Char.isDigit) then
            some (mon, d, natOfDigits ys)
          else none
        else none
    else none

/-- `ACC_YMD_DASH` anchored at one position; groups `(year, month, day)`. -/
def accYmdAt (s : List Char) : Option (Nat × Nat × Nat) :=
  match acceptedLead s with
  | none => none
  | some s4 =>
    let ys := s4.takeWhile Char.isDigit
    let s5 := s4.dropWhile Char.isDigit
    if ys.length == 4 && s5.head? == some '-' then
      match digitRun12 s5.tail with
      | none => none
      | some (m, s6) =>
        if s6.head? == some '-' then
          match digitRun12 s6.tail with
          | none => none
          | some (d, s7) =>
            if nonWordNext s7 then some (natOfDigits ys, m, d) else none
        else none
    else none

/-- `ACC_DMY_SLASH` anchored at one position; groups `(day, month, year)`
— the documented day/month/year reading of the slash form. -/
def accSlashAt (s : List Char) : Option (Nat × Nat × Nat) :=
  match acceptedLead s with
  | none => none
  | some s4 =>
    match digitRun12 s4 with
    | none => none
    | some (d, s5) =>
      if s5.head? == some '/' then
        match digitRun12 s5.tail with
        | none => none
        | some (m, s6) =>
          if s6.head? == some '/' then
            let ys := s6.tail.takeWhile Char.isDigit
            if ys.length == 4 && nonWordNext (s6.tail.dropWhile Char.isDigit) then
              some (d, m, natOfDigits ys)
            else none
          else none
      else none

def MONTH_LOOKUP : List (List Char × Nat) := [
  (("jan").data, 1), (("january").data, 1),
  (("feb").data, 2), (("february").data, 2),
  (("mar").data, 3), (("march").data, 3),
  (("apr").data, 4), (("april").data, 4),
  (("may").data, 5),
  (("jun").data, 6), (("june").data, 6),
  (("jul").data, 7), (("july").data, 7),
  (("aug").data, 8), (("august").data, 8),
  (("sep").data, 9), (("sept").data, 9), (("september").data, 9),
  (("oct").data, 10), (("october").data, 10),
  (("nov").data, 11), (("november").data, 11),
  (("dec").data, 12), (("december").data, 12)]

def assocLookup {β : Type} (m : List (List Char × β)) (k : List Char) : Option β :=
  (m.find? (fun p => p.1 == k)).map (fun p => p.2)

/-- `MONTH_LOOKUP.get(mon.lower(), MONTH_LOOKUP.get(mon.lower()[:3]))`. -/
def monthResolve (mon : List Char) : Option Nat :=
  match assocLookup MONTH_LOOKUP (lowerL mon) with
  | some i => some i
  | none => assocLookup MONTH_LOOKUP ((lowerL mon).take 3)

structure PyDate where
  year : Nat
  month : Nat
  day : Nat
deriving DecidableEq, Repr

def isLeapYear (y : Nat) : Bool :=
  y % 4 == 0 && (y % 100 != 0 || y % 400 == 0)

def daysInMonth (y m : Nat) : Nat :=
  if m == 2 then (if isLeapYear y then 29 else 28)
  else if m == 4 || m == 6 || m == 9 || m == 11 then 30
  else 31

/-- `datetime.date(y, m, d)` succeeds exactly under these bounds
(`datetime.MINYEAR = 1`, `MAXYEAR = 9999`); otherwise it raises
`ValueError`, which `parse_accepted_date` turns into `None`. -/
def isValidDate (y m d : Nat) : Bool :=
  decide (1 ≤ y) && decide (y ≤ 9999) && decide (1 ≤ m) && decide (m ≤ 12) &&
  decide (1 ≤ d) && decide (d ≤ daysInMonth y m)

def mkDate (y m d : Nat) : Option PyDate :=
  if isValidDate y m d then some ⟨y, m, d⟩ else none

def parseSlash (t : List Char) : Option PyDate :=
  match regexSearch accSlashAt t with
  | some (d, m, y) => mkDate y m d
  | none => none

def parseYmd (t : List Char) : Option PyDate :=
  match regexSearch accYmdAt t with
  | some (y, m, d) => mkDate y m d
  | none => parseSlash t

def parseMdy (t : List Char) : Option PyDate :=
  match regexSearch accMdyAt t with
  | some (mon, d, y) =>
    match monthResolve mon with
    | some mi => mkDate y mi d
    | none => parseYmd t
  | none => parseYmd t

def parseDmy (t : List Char) : Option PyDate :=
  match regexSearch accDmyAt t with
  | some (d, mon, y) =>
    match monthResolve mon with
    | some mi => mkDate y mi d
    | none => parseMdy t
  | none => parseMdy t

/-- `parse_accepted_date` (lines 167-209): normalize, then try the four
patterns in order; a match whose month resolves but whose date is
calendar-invalid returns `None` at once (the `except ValueError`); a
match whose month word does not resolve falls through to the next
pattern (`if mon_i:` is then falsy). -/
def parse_accepted_date (text : List Char) : Option PyDate :=
  if (normalize_text_for_dates text).isEmpty then none
  else parseDmy (normalize_text_for_dates text)

/-- Claim C4: whenever the first Accepted-date pattern that matches the
normalized text denotes a calendar-invalid date, `parse_accepted_date`
returns `none` (totally — no exception) and no later pattern is
consulted; one conjunct for each of the four patterns being the first
that matches. -/
theorem c4_invalid_date_absent :
    ∀ t : List Char,
      (∀ d mon y mi,
        regexSearch accDmyAt (normalize_text_for_dates t) = some (d, mon, y) →
        monthResolve mon = some mi → isValidDate y mi d = false →
        parse_accepted_date t = none) ∧
      (∀ mon d y mi,
        regexSearch accDmyAt (normalize_text_for_dates t) = none →
        regexSearch accMdyAt (normalize_text_for_dates t) = some (mon, d, y) →
        monthResolve mon = some mi → isValidDate y mi d = false →
        parse_accepted_date t = none) ∧
      (∀ y m d,
        regexSearch accDmyAt (normalize_text_for_dates t) = none →
        regexSearch accMdyAt (normalize_text_for_dates t) = none →
        regexSearch accYmdAt (normalize_text_for_dates t) = some (y, m, d) →
        isValidDate y m d = false →
        parse_accepted_date t = none) ∧
      (∀ d m y,
        regexSearch accDmyAt (normalize_text_for_dates t) = none →
        regexSearch accMdyAt (normalize_text_for_dates t) = none →
        regexSearch accYmdAt (normalize_text_for_dates t) = none →
        regexSearch accSlashAt (normalize_text_for_dates t) = some (d, m, y) →
        isValidDate y m d = false →
        parse_accepted_date t = none) := by
  intro t
  have hne : ∀ {α : Type} (f : List Char → Option α) (r : α),
      regexSearch f (normalize_text_for_dates t) = some r →
      ¬((normalize_text_for_dates t).isEmpty = true) := by
    intro α f r hr
    cases hn : normalize_text_for_dates t with
    | nil => rw [hn] at hr; simp [regexSearch, searchAux] at hr
    | cons c cs => simp [hn]
  refine ⟨?_, ?_, ?_, ?_⟩
  · intro d mon y mi h1 h2 h3
    unfold parse_accepted_date
    rw [if_neg (hne accDmyAt _ h1)]
    unfold parseDmy
    simp only [h1, h2]
    simp [mkDate, h3]
  · intro mon d y mi h0 h1 h2 h3
    unfold parse_accepted_date
    rw [if_neg (hne accMdyAt _ h1)]
    unfold parseDmy parseMdy
    simp only [h0, h1, h2]
    simp [mkDate, h3]
  · intro y m d h0 h1 h2 h3
    unfold parse_accepted_date
    rw [if_neg (hne accYmdAt _ h2)]
    unfold parseDmy parseMdy parseYmd
    simp only [h0, h1, h2]
    simp [mkDate, h3]
  · intro d m y h0 h1 h2 h3 h4
    unfold parse_accepted_date
    rw [if_neg (hne accSlashAt _ h3)]
    unfold parseDmy parseMdy parseYmd parseSlash
    simp only [h0, h1, h2, h3]
    simp [mkDate, h4]

/-- Witness for C4 at a concrete input: the first pattern's match
`"Accepted 31 April 2025"` is calendar-invalid (April has 30 days), so
the parser yields `none`, even though the month-day-year pattern would
match the second date in the same text — no later pattern is retried. -/
theorem c4_invalid_date_absent_witness :
    parse_accepted_date (("Accepted 31 April 2025 Accepted April 2, 2025").data) = none ∧
    regexSearch accMdyAt
      (normalize_text_for_dates (("Accepted 31 April 2025 Accepted April 2, 2025").data)) =
      some ((("April").data), 2, 2025) :=
  ⟨(c4_invalid_date_absent (("Accepted 31 April 2025 Accepted April 2, 2025").data)).1
      31 (("April").data) 2025 4 (by decide) (by decide) (by decide),
    by decide⟩

/-- Claim C5: each of the four supported Accepted-date forms parses to
the denoted calendar date 2025-04-02, and the ambiguous slash form
`02/04/2025` is read day/month/year (April 2nd), not month/day/year
(February 4th). -/
theorem c5_accepted_date_forms :
    parse_accepted_date (("Accepted: 2 April 2025").data) = some ⟨2025, 4, 2⟩ ∧
    parse_accepted_date (("Accepted April 2, 2025").data) = some ⟨2025, 4, 2⟩ ∧
    parse_accepted_date (("Accepted: 2025-04-02").data) = some ⟨2025, 4, 2⟩ ∧
    parse_accepted_date (("Accepted: 02/04/2025").data) = some ⟨2025, 4, 2⟩ ∧
    parse_accepted_date (("Accepted: 02/04/2025").data) ≠ some ⟨2025, 2, 4⟩ :=
  ⟨by decide, by decide, by decide, by decide, by decide⟩

/-! ### Workbook month routing (sort_mrm_pdfs..., lines 68-71, 351-360,
427, 438-457) -/

def MONTH_NAMES : List (List Char) :=
  [("January").data, ("February").data, ("March").data, ("April").data,
   ("May").data, ("June").data, ("July").data, ("August").data,
   ("September").data, ("October").data, ("November").data, ("December").data]

/-- `month_sheet_name` (lines 351-354): `"Sheet7"` for a missing date,
else `MONTH_NAMES[d.month - 1]`. -/
def month_sheet_name (d : Option PyDate) : List Char :=
  match d with
  | none => ("Sheet7").data
  | some dd => MONTH_NAMES.getD (dd.month - 1) []

def natToDigits (n : Nat) : List Char :=
  Nat.toDigits 10 n

def padZeros (w : Nat) (s : List Char) : List Char :=
  List.replicate (w - s.length) '0' ++ s

/-- `month_cell_value` (lines 357-360): `""` for a missing date, else
`f"{d.year:04d}-{d.month:02d}-01"`. -/
def month_cell_value (d : Option PyDate) : List Char :=
  match d with
  | none => []
  | some dd =>
    padZeros 4 (natToDigits dd.year) ++ (("-").data) ++
      padZeros 2 (natToDigits dd.month) ++ (("-01").data)

/-- The sheet `main` appends a processed document's row to (lines 427,
438, 444): `month_sheet_name` of the parsed Accepted date of the
document's extracted text. -/
def mainSheetFor (text : List Char) : List Char :=
  month_sheet_name (parse_accepted_date text)

/-- The "Month" cell `main` writes in that row (lines 439, 446). -/
def mainMonthCellFor (text : List Char) : List Char :=
  month_cell_value (parse_accepted_date text)

theorem mkDate_valid (y m d : Nat) (dd : PyDate) (h : mkDate y m d = some dd) :
    isValidDate dd.year dd.month dd.day = true := by
  unfold mkDate at h
  split at h
  case isTrue hv =>
    simp only [Option.some.injEq] at h
    subst h
    exact hv
  case isFalse => exact absurd h (by simp)

theorem parseSlash_valid (t : List Char) (dd : PyDate) (h : parseSlash t = some dd) :
    isValidDate dd.year dd.month dd.day = true := by
  unfold parseSlash at h
  cases hs : regexSearch accSlashAt t with
  | none => rw [hs] at h; simp at h
  | some r =>
    obtain ⟨d, m, y⟩ := r
    simp only [hs] at h
    exact mkDate_valid _ _ _ _ h

theorem parseYmd_valid (t : List Char) (dd : PyDate) (h : parseYmd t = some dd) :
    isValidDate dd.year dd.month dd.day = true := by
  unfold parseYmd at h
  cases hs : regexSearch accYmdAt t with
  | none =>
    simp only [hs] at h
    exact parseSlash_valid t dd h
  | some r =>
    obtain ⟨y, m, d⟩ := r
    simp only [hs] at h
    exact mkDate_valid _ _ _ _ h

theorem parseMdy_valid (t : List Char) (dd : PyDate) (h : parseMdy t = some dd) :
    isValidDate dd.year dd.month dd.day = true := by
  unfold parseMdy at h
  cases hs : regexSearch accMdyAt t with
  | none =>
    simp only [hs] at h
    exact parseYmd_valid t dd h
  | some r =>
    obtain ⟨mon, d, y⟩ := r
    simp only [hs] at h
    cases hm : monthResolve mon with
    | none =>
      simp only [hm] at h
      exact parseYmd_valid t dd h
    | some mi =>
      simp only [hm] at h
      exact mkDate_valid _ _ _ _ h

theorem parseDmy_valid (t : List Char) (dd : PyDate) (h : parseDmy t = some dd) :
    isValidDate dd.year dd.month dd.day = true := by
  unfold parseDmy at h
  cases hs : regexSearch accDmyAt t with
  | none =>
    simp only [hs] at h
    exact parseMdy_valid t dd h
  | some r =>
    obtain ⟨d, mon, y⟩ := r
    simp only [hs] at h
    cases hm : monthResolve mon with
    | none =>
      simp only [hm] at h
      exact parseMdy_valid t dd h
    | some mi =>
      simp only [hm] at h
      exact mkDate_valid _ _ _ _ h

/-- Every date produced by `parse_accepted_date` is calendar-valid. -/
theorem parse_accepted_date_valid (text : List Char) (dd : PyDate)
    (h : parse_accepted_date text = some dd) :
    isValidDate dd.year dd.month dd.day = true := by
  unfold parse_accepted_date at h
  by_cases he : (normalize_text_for_dates text).isEmpty = true
  · rw [if_pos he] at h; exact absurd h (by simp)
  · rw [if_neg he] at h; exact parseDmy_valid _ _ h

/-- Claim C10: a processed document whose Accepted date cannot be
parsed is routed to the extra sheet `"Sheet7"` with an empty Month
cell; when a date `d` is parsed, the row goes to the sheet named after
`d`'s month (index `d.month - 1` of the January..December names, with
`1 ≤ d.month ≤ 12` guaranteed) and the Month cell is the zero-padded
string `"YYYY-MM-01"` built from `d`'s year and month. -/
theorem c10_month_routing :
    ∀ text : List Char,
      (parse_accepted_date text = none →
        mainSheetFor text = ("Sheet7").data ∧ mainMonthCellFor text = []) ∧
      (∀ dd : PyDate, parse_accepted_date text = some dd →
        1 ≤ dd.month ∧ dd.month ≤ 12 ∧
        mainSheetFor text = MONTH_NAMES.getD (dd.month - 1) [] ∧
        mainMonthCellFor text =
          padZeros 4 (natToDigits dd.year) ++ (("-").data) ++
            padZeros 2 (natToDigits dd.month) ++ (("-01").data)) := by
  intro text
  constructor
  · intro h
    unfold mainSheetFor mainMonthCellFor
    rw [h]
    exact ⟨rfl, rfl⟩
  · intro dd h
    have hv := parse_accepted_date_valid text dd h
    simp only [isValidDate, Bool.and_eq_true, decide_eq_true_eq] at hv
    refine ⟨hv.1.1.1.2, hv.1.1.2, ?_, ?_⟩
    · unfold mainSheetFor
      rw [h]
      rfl
    · unfold mainMonthCellFor
      rw [h]
      rfl

/-- Witness for C10: `"Accepted: 2 April 2025"` routes to sheet
`"April"` with Month cell `"2025-04-01"`; a dateless text routes to
`"Sheet7"` with an empty cell. -/
theorem c10_month_routing_witness :
    mainSheetFor (("Accepted: 2 April 2025").data) = ("April").data ∧
    mainMonthCellFor (("Accepted: 2 April 2025").data) = ("2025-04-01").data ∧
    mainSheetFor (("no acceptance date here").data) = ("Sheet7").data ∧
    mainMonthCellFor (("no acceptance date here").data) = [] := by
  have h1 := (c10_month_routing (("Accepted: 2 April 2025").data)).2 ⟨2025, 4, 2⟩ (by decide)
  have h2 := (c10_month_routing (("no acceptance date here").data)).1 (by decide)
  refine ⟨?_, ?_, h2.1, h2.2⟩
  · rw [h1.2.2.1]; decide
  · rw [h1.2.2.2]; decide

/-! ### Keyword scanner (scan_keywords_update_workbook.py, lines 69-113) -/

namespace ScanKw

/-- `SEARCH_TERMS` (69-84), with the comma fix the script documents. -/
def SEARCH_TERMS : List (List Char) := [
  ("open source").data, ("open-source").data, ("opensource").data,
  ("open science").data, ("github").data, (" git ").data, ("osf").data,
  ("jupyter").data, ("notebook").data, ("octave").data,
  ("available online").data, ("released").data, ("shared").data, (" code ").data]

/-- `notebook_style_keyword_scan` (89-113): for each term in list
order, scan pages in order and record the term at its first matching
page (the `break` ends the page loop); a term in `seen` is skipped.
`mtch term page` abstracts `re.search(term, page_text)`; every entry
of `SEARCH_TERMS` is regex-literal, for which the search is the
substring test `containsSub`. -/
def nskScanAux (mtch : List Char → List Char → Bool) (pages : List (List Char)) :
    List (List Char) → List (List Char) → List (List Char)
  | _, [] => []
  | seen, kw :: rest =>
    if seen.contains kw then nskScanAux mtch pages seen rest
    else
      match pages.findIdx? (fun pg => mtch kw pg) with
      | some _ => kw :: nskScanAux mtch pages (kw :: seen) rest
      | none => nskScanAux mtch pages seen rest

def notebook_style_keyword_scan (pages : List (List Char)) (terms : List (List Char)) :
    List (List Char) :=
  nskScanAux containsSub pages [] terms

theorem nskScanAux_cons (mtch : List Char → List Char → Bool) (pages : List (List Char))
    (seen : List (List Char)) (kw : List Char) (rest : List (List Char)) :
    nskScanAux mtch pages seen (kw :: rest) =
      if seen.contains kw then nskScanAux mtch pages seen rest
      else
        match pages.findIdx? (fun pg => mtch kw pg) with
        | some _ => kw :: nskScanAux mtch pages (kw :: seen) rest
        | none => nskScanAux mtch pages seen rest := rfl

theorem nskScanAux_mem (mtch : List Char → List Char → Bool) (pages : List (List Char)) :
    ∀ (ts seen : List (List Char)) (x : List Char),
      x ∈ nskScanAux mtch pages seen ts ↔
        (x ∉ seen ∧ x ∈ ts ∧ (pages.findIdx? (fun pg => mtch x pg)).isSome = true) := by
  intro ts
  induction ts with
  | nil => intro seen x; simp [nskScanAux]
  | cons kw rest ih =>
    intro seen x
    by_cases hseen : seen.contains kw = true
    · rw [nskScanAux_cons, if_pos hseen]
      rw [ih seen x]
      constructor
      · rintro ⟨h1, h2, h3⟩
        exact ⟨h1, by simp [h2], h3⟩
      · rintro ⟨h1, h2, h3⟩
        refine ⟨h1, ?_, h3⟩
        rcases List.mem_cons.mp h2 with rfl | h2'
        · exact absurd (List.elem_iff.mp hseen) h1
        · exact h2'
    · cases hf : pages.findIdx? (fun pg => mtch kw pg) with
      | some i =>
        rw [nskScanAux_cons, if_neg hseen]
        simp only [hf]
        rw [List.mem_cons, ih (kw :: seen) x]
        constructor
        · rintro (rfl | ⟨h1, h2, h3⟩)
          · exact ⟨fun hx => hseen (List.elem_iff.mpr hx), by simp, by simp [hf]⟩
          · exact ⟨fun hx => h1 (by simp [hx]), by simp [h2], h3⟩
        · rintro ⟨h1, h2, h3⟩
          by_cases hxk : x = kw
          · exact Or.inl hxk
          · right
            refine ⟨?_, ?_, h3⟩
            · intro hx
              rcases List.mem_cons.mp hx with h | h
              · exact hxk h
              · exact h1 h
            · rcases List.mem_cons.mp h2 with h | h
              · exact absurd h hxk
              · exact h
      | none =>
        rw [nskScanAux_cons, if_neg hseen]
        simp only [hf]
        rw [ih seen x]
        constructor
        · rintro ⟨h1, h2, h3⟩
          exact ⟨h1, by simp [h2], h3⟩
        · rintro ⟨h1, h2, h3⟩
          refine ⟨h1, ?_, h3⟩
          rcases List.mem_cons.mp h2 with rfl | h2'
          · rw [hf] at h3
            simp at h3
          · exact h2'

theorem nskScanAux_sublist (mtch : List Char → List Char → Bool) (pages : List (List Char)) :
    ∀ (ts seen : List (List Char)), (nskScanAux mtch pages seen ts).Sublist ts := by
  intro ts
  induction ts with
  | nil => intro seen; simp [nskScanAux]
  | cons kw rest ih =>
    intro seen
    by_cases hseen : seen.contains kw = true
    · rw [nskScanAux_cons, if_pos hseen]
      exact (ih seen).cons kw
    · cases hf : pages.findIdx? (fun pg => mtch kw pg) with
      | some i =>
        rw [nskScanAux_cons, if_neg hseen]
        simp only [hf]
        exact (ih (kw :: seen)).cons₂ kw
      | none =>
        rw [nskScanAux_cons, if_neg hseen]
        simp only [hf]
        exact (ih seen).cons kw

theorem nskScanAux_nodup (mtch : List Char → List Char → Bool) (pages : List (List Char)) :
    ∀ (ts seen : List (List Char)), (nskScanAux mtch pages seen ts).Nodup := by
  intro ts
  induction ts with
  | nil => intro seen; simp [nskScanAux]
  | cons kw rest ih =>
    intro seen
    by_cases hseen : seen.contains kw = true
    · rw [nskScanAux_cons, if_pos hseen]
      exact ih seen
    · cases hf : pages.findIdx? (fun pg => mtch kw pg) with
      | some i =>
        rw [nskScanAux_cons, if_neg hseen]
        simp only [hf]
        rw [List.nodup_cons]
        refine ⟨?_, ih (kw :: seen)⟩
        intro hmem
        exact ((nskScanAux_mem mtch pages rest (kw :: seen) kw).mp hmem).1 (by simp)
      | none =>
        rw [nskScanAux_cons, if_neg hseen]
        simp only [hf]
        exact ih seen

end ScanKw

/-- Claim C8: for every matching predicate, page sequence and term
list, the keyword scan's result is a sublist of the term list (original
order), has no duplicates, and contains a term iff it is in the list
and some page matches it (the scan records it at the first such page
and never rescans it); on the claim's example — terms
`["github", "osf"]`, page 1 containing "github", page 2 containing
both — the result is exactly `["github", "osf"]`. -/
theorem c8_keyword_scan :
    (∀ (mtch : List Char → List Char → Bool) (pages terms : List (List Char)),
      (ScanKw.nskScanAux mtch pages [] terms).Sublist terms ∧
      (ScanKw.nskScanAux mtch pages [] terms).Nodup ∧
      (∀ kw, kw ∈ ScanKw.nskScanAux mtch pages [] terms ↔
        kw ∈ terms ∧ (pages.findIdx? (fun pg => mtch kw pg)).isSome = true)) ∧
    ScanKw.notebook_style_keyword_scan
      [("this work is on github today").data, ("github and osf host the code").data]
      [("github").data, ("osf").data] = [("github").data, ("osf").data] := by
  constructor
  · intro mtch pages terms
    refine ⟨ScanKw.nskScanAux_sublist mtch pages terms [],
      ScanKw.nskScanAux_nodup mtch pages terms [], fun kw => ?_⟩
    rw [ScanKw.nskScanAux_mem mtch pages terms [] kw]
    simp
  · decide

/-! ### Gender inference (sort_mrm_pdfs..., lines 307-337) -/

/-- `.strip().split(" ")[0]`: the stripped name up to the first plain
space. -/
def firstToken (s : List Char) : List Char :=
  (pyStrip s).takeWhile (fun c => c != ' ')

/-- Tier (a): the curated table, consulted as
`key in popular_map and popular_map[key] in ("male", "female")`. -/
def curatedGender (popular : List (List Char × List Char)) (key : List Char) :
    Option (List Char) :=
  match assocLookup popular key with
  | some v => if v == ("male").data || v == ("female").data then some v else none
  | none => none

/-- Tier (b): the statistical detector's answer `gg`, with
`mostly_male`/`mostly_female` mapped onto male/female and anything else
(andy, unknown, ...) inconclusive. -/
def detGender (gg : List Char) : Option (List Char) :=
  if gg == ("male").data || gg == ("female").data then some gg
  else if gg == ("mostly_male").data then some (("male").data)
  else if gg == ("mostly_female").data then some (("female").data)
  else none

/-- Tier (c): the Genderize oracle, consulted only when enabled and
importable; `res = none` models a raised exception, an empty response
or a missing gender field, all of which the code swallows. -/
def genderizeGender (use_genderize have_genderize : Bool) (res : Option (List Char)) :
    Option (List Char) :=
  if use_genderize && have_genderize then
    match res with
    | some g => if g == ("male").data || g == ("female").data then some g else none
    | none => none
  else none

/-- `infer_gender` (307-337): blank input short-circuits to unknown;
then curated table, statistical detector `det`, optional Genderize
oracle, final fallback `"unknown"`. -/
def infer_gender (firstname : List Char) (popular : List (List Char × List Char))
    (det : List Char → List Char) (use_genderize have_genderize : Bool)
    (genderize : List Char → Option (List Char)) : List Char :=
  if (firstToken firstname).isEmpty then ("unknown").data
  else
    match curatedGender popular (lowerL (firstToken firstname)) with
    | some v => v
    | none =>
      match detGender (det (firstToken firstname)) with
      | some v => v
      | none =>
        match genderizeGender use_genderize have_genderize
            (genderize (firstToken firstname)) with
        | some v => v
        | none => ("unknown").data

theorem curatedGender_some (popular : List (List Char × List Char)) (key v : List Char)
    (h : curatedGender popular key = some v) :
    v = ("male").data ∨ v = ("female").data := by
  unfold curatedGender at h
  cases hl : assocLookup popular key with
  | none => simp only [hl] at h; simp at h
  | some w =>
    simp only [hl] at h
    by_cases hw : (w == ("male").data || w == ("female").data) = true
    · rw [if_pos hw] at h
      simp only [Option.some.injEq] at h
      subst h
      rcases Bool.or_eq_true .. |>.mp hw with h' | h'
      · exact Or.inl (by simpa using h')
      · exact Or.inr (by simpa using h')
    · rw [if_neg hw] at h
      simp at h

theorem detGender_some (gg v : List Char) (h : detGender gg = some v) :
    v = ("male").data ∨ v = ("female").data := by
  unfold detGender at h
  by_cases h1 : (gg == ("male").data || gg == ("female").data) = true
  · rw [if_pos h1] at h
    simp only [Option.some.injEq] at h
    subst h
    rcases Bool.or_eq_true .. |>.mp h1 with h' | h'
    · exact Or.inl (by simpa using h')
    · exact Or.inr (by simpa using h')
  · rw [if_neg h1] at h
    by_cases h2 : (gg == ("mostly_male").data) = true
    · rw [if_pos h2] at h
      simp only [Option.some.injEq] at h
      exact Or.inl h.symm
    · rw [if_neg h2] at h
      by_cases h3 : (gg == ("mostly_female").data) = true
      · rw [if_pos h3] at h
        simp only [Option.some.injEq] at h
        exact Or.inr h.symm
      · rw [if_neg h3] at h
        simp at h

theorem genderizeGender_some (uz hz : Bool) (res : Option (List Char)) (v : List Char)
    (h : genderizeGender uz hz res = some v) :
    v = ("male").data ∨ v = ("female").data := by
  unfold genderizeGender at h
  by_cases h1 : (uz && hz) = true
  · rw [if_pos h1] at h
    cases res with
    | none => simp at h
    | some g =>
      by_cases h2 : (g == ("male").data || g == ("female").data) = true
      · simp only [if_pos h2, Option.some.injEq] at h
        subst h
        rcases Bool.or_eq_true .. |>.mp h2 with h' | h'
        · exact Or.inl (by simpa using h')
        · exact Or.inr (by simpa using h')
      · simp only [if_neg h2] at h
        exact absurd h (by simp)
  · rw [if_neg h1] at h
    simp at h

/-- Claim C9: gender inference always lands in
{male, female, unknown}; blank input yields "unknown" independently of
table, detector and oracle (no tier consulted); a curated male/female
entry is returned independently of detector and oracle; and when the
table misses or holds non-male/female, the detector answers no
recognized category, and the oracle yields nothing, the final fallback
is "unknown". -/
theorem c9_infer_gender :
    (∀ firstname popular det uz hz gz,
      infer_gender firstname popular det uz hz gz = ("male").data ∨
      infer_gender firstname popular det uz hz gz = ("female").data ∨
      infer_gender firstname popular det uz hz gz = ("unknown").data) ∧
    (∀ firstname, (firstToken firstname).isEmpty = true →
      ∀ popular det uz hz gz,
        infer_gender firstname popular det uz hz gz = ("unknown").data) ∧
    (∀ firstname popular v,
      (firstToken firstname).isEmpty = false →
      curatedGender popular (lowerL (firstToken firstname)) = some v →
      ∀ det uz hz gz, infer_gender firstname popular det uz hz gz = v) ∧
    (∀ firstname popular det uz hz gz,
      curatedGender popular (lowerL (firstToken firstname)) = none →
      detGender (det (firstToken firstname)) = none →
      genderizeGender uz hz (gz (firstToken firstname)) = none →
      infer_gender firstname popular det uz hz gz = ("unknown").data) := by
  refine ⟨?_, ?_, ?_, ?_⟩
  · intro firstname popular det uz hz gz
    unfold infer_gender
    by_cases h0 : (firstToken firstname).isEmpty = true
    · rw [if_pos h0]; right; right; rfl
    · rw [if_neg h0]
      cases hc : curatedGender popular (lowerL (firstToken firstname)) with
      | some v =>
        simp only [hc]
        rcases curatedGender_some _ _ _ hc with h | h
        · exact Or.inl h
        · exact Or.inr (Or.inl h)
      | none =>
        simp only [hc]
        cases hd : detGender (det (firstToken firstname)) with
        | some v =>
          simp only [hd]
          rcases detGender_some _ _ hd with h | h
          · exact Or.inl h
          · exact Or.inr (Or.inl h)
        | none =>
          simp only [hd]
          cases hg : genderizeGender uz hz (gz (firstToken firstname)) with
          | some v =>
            simp only [hg]
            rcases genderizeGender_some _ _ _ _ hg with h | h
            · exact Or.inl h
            · exact Or.inr (Or.inl h)
          | none =>
            simp only [hg]
            trivial
  · intro firstname h0 popular det uz hz gz
    unfold infer_gender
    rw [if_pos h0]
  · intro firstname popular v h0 hc det uz hz gz
    unfold infer_gender
    rw [if_neg (by simp [h0])]
    simp only [hc]
  · intro firstname popular det uz hz gz hc hd hg
    unfold infer_gender
    by_cases h0 : (firstToken firstname).isEmpty = true
    · rw [if_pos h0]
    · rw [if_neg h0]
      simp only [hc, hd, hg]

/-- Witness for C9: an adversarial detector and oracle that always
answer "male" cannot override the curated "female" entry for Anna, and
blank input yields "unknown" against the same oracles. -/
theorem c9_infer_gender_witness :
    infer_gender (("Anna Maria").data) [((("anna").data), (("female").data))]
      (fun _ => ("male").data) true true (fun _ => some (("male").data)) = ("female").data ∧
    infer_gender (("   ").data) [((("anna").data), (("female").data))]
      (fun _ => ("male").data) true true (fun _ => some (("male").data)) = ("unknown").data :=
  ⟨c9_infer_gender.2.2.1 (("Anna Maria").data) [((("anna").data), (("female").data))]
      (("female").data) (by decide) (by decide) _ _ _ _,
    c9_infer_gender.2.1 (("   ").data) (by decide) _ _ _ _ _⟩

/-! ### Workbook row matching and log statuses
(scan_keywords_update_workbook.py, lines 145-249) -/

namespace ScanKw

/-- `build_workbook_index` (145-163): per sheet, the DOI parsed from
each data row's "Link" cell paired with its row number (data rows start
at row 2; sheets lacking the required header columns are skipped by the
code and are not part of this input). -/
def build_workbook_index (sheets : List (List Char × List (List Char))) :
    List (List Char × List (List Char × Nat)) :=
  sheets.map (fun sh =>
    (sh.1, sh.2.enum.map (fun p => (parse_doi_from_link p.2, p.1 + 2))))

/-- The inner row loop of the DOI tier (220-223): first row whose
stored DOI is nonempty and equals the PDF's DOI. -/
def findDoiRow (rows : List (List Char × Nat)) (doiPdf : List Char) : Option Nat :=
  match rows with
  | [] => none
  | (doi, r) :: rest =>
    if !doi.isEmpty && doi == doiPdf then some r else findDoiRow rest doiPdf

/-- The DOI tier (217-225): first sheet in index order whose rows hold
the DOI; deterministic under the fixed sheet-then-row iteration. -/
def matchDoiSheet (index : List (List Char × List (List Char × Nat))) (doiPdf : List Char) :
    Option (List Char × Nat) :=
  match index with
  | [] => none
  | (sheet, rows) :: rest =>
    match findDoiRow rows doiPdf with
    | some r => some (sheet, r)
    | none => matchDoiSheet rest doiPdf

/-- The filename/title fallback test (line 235): nonempty row title is
a case-insensitive substring of the PDF's full filename, or the PDF's
filename stem is a case-insensitive substring of the title. -/
def titleFallbackHit (title pdfName pdfStem : List Char) : Bool :=
  !title.isEmpty &&
    (containsSub (lowerL title) (lowerL pdfName) || containsSub (lowerL pdfStem) (lowerL title))

/-- The fallback row loop (227-237), which runs over the month sheet's
rows only: first row whose title passes `titleFallbackHit`. -/
def fallbackMatchRow (rows : List (List Char × Nat)) (pdfName pdfStem : List Char) :
    Option Nat :=
  match rows with
  | [] => none
  | (title, r) :: rest =>
    if titleFallbackHit title pdfName pdfStem then some r
    else fallbackMatchRow rest pdfName pdfStem

/-- The status column of the per-PDF log row (lines 186-249):
`no_keywords`, `no_match_in_xlsx`, or `updated:{sheet}!{row}`
(`scan_failed` arises only from a reader exception, outside this
embedding).  `monthRows` is `some titleRows` when the month's sheet
exists in the workbook. -/
def pdfLogStatus (kws : List (List Char)) (doiInPdf : List Char)
    (index : List (List Char × List (List Char × Nat)))
    (month : List Char) (monthRows : Option (List (List Char × Nat)))
    (pdfName pdfStem : List Char) : List Char :=
  if kws.isEmpty then ("no_keywords").data
  else
    match
      (match (if doiInPdf.isEmpty then none else matchDoiSheet index doiInPdf) with
        | some x => some x
        | none =>
          match monthRows with
          | some rows => (fallbackMatchRow rows pdfName pdfStem).map (fun r => (month, r))
          | none => none) with
    | none => ("no_match_in_xlsx").data
    | some sr => ("updated:").data ++ sr.1 ++ ('!' :: natToDigits sr.2)

end ScanKw

/-- Claim C1 (code behavior at the failing input): with two January
rows (2 and 3) whose Link cells carry the identical identifier
`10.1002/mrm.1`, the DOI tier deterministically matches the first row
under the fixed sheet-then-row order and the log status is
`updated:January!2`; and no input whatsoever produces an `ambiguous`
status — the matcher never reports ambiguity, contradicting the claim
and the script's own docstring ("If multiple rows match, we update the
first one and log an ambiguity warning"). -/
theorem c1_no_ambiguous_status :
    (ScanKw.matchDoiSheet
        (ScanKw.build_workbook_index
          [((("January").data),
            [("https://doi.org/10.1002/mrm.1").data, ("https://doi.org/10.1002/mrm.1").data])])
        (("10.1002/mrm.1").data) = some ((("January").data), 2) ∧
      ScanKw.pdfLogStatus [("github").data] (("10.1002/mrm.1").data)
        (ScanKw.build_workbook_index
          [((("January").data),
            [("https://doi.org/10.1002/mrm.1").data, ("https://doi.org/10.1002/mrm.1").data])])
        (("January").data) none (("paper.pdf").data) (("paper").data) =
        ("updated:January!2").data) ∧
    (∀ kws doiInPdf index month monthRows pdfName pdfStem,
      ScanKw.pdfLogStatus kws doiInPdf index month monthRows pdfName pdfStem ≠
        ("ambiguous").data) := by
  constructor
  · exact ⟨by decide, by decide⟩
  · intro kws doiInPdf index month monthRows pdfName pdfStem
    unfold ScanKw.pdfLogStatus
    by_cases hk : kws.isEmpty = true
    · rw [if_pos hk]; decide
    · rw [if_neg hk]
      cases hm2 :
        (match (if doiInPdf.isEmpty then none else ScanKw.matchDoiSheet index doiInPdf) with
          | some x => some x
          | none =>
            match monthRows with
            | some rows => (ScanKw.fallbackMatchRow rows pdfName pdfStem).map (fun r => (month, r))
            | none => none) with
      | none => simp only [hm2]; decide
      | some sr =>
        simp only [hm2]
        intro hcon
        have h1 : (("updated:").data ++ sr.1 ++ ('!' :: natToDigits sr.2)).head? = some 'u' := rfl
        rw [hcon] at h1
        exact absurd h1 (by decide)

/-- Claim C2 counterexample: the fallback matcher does not match
filename "smith2024.pdf" to a row titled "Smith 2024" — neither
containment direction holds (the space in the title blocks both) — so
the claim's concrete example is false on the code. -/
theorem c2_fallback_counterexample :
    ScanKw.titleFallbackHit (("Smith 2024").data) (("smith2024.pdf").data)
      (("smith2024").data) = false ∧
    ScanKw.fallbackMatchRow [((("Smith 2024").data), 2)] (("smith2024.pdf").data)
      (("smith2024").data) = none :=
  ⟨by decide, by decide⟩

/-- Claim C2 (amended): a document with no identifier is matched only
against the rows of its month's sheet, and the matcher returns the
first row whose nonempty title is a case-insensitive substring of the
document's full filename or whose title case-insensitively contains
the document's filename stem; filename "smith 2024 final.pdf" does
match title "Smith 2024" this way, while "smith2024.pdf" does not. -/
theorem c2_fallback_matcher :
    (∀ (rows : List (List Char × Nat)) (pdfName pdfStem : List Char),
      ScanKw.fallbackMatchRow rows pdfName pdfStem =
        (rows.find? (fun p => ScanKw.titleFallbackHit p.1 pdfName pdfStem)).map
          (fun p => p.2)) ∧
    ScanKw.fallbackMatchRow [((("Smith 2024").data), 2)] (("smith 2024 final.pdf").data)
      (("smith 2024 final").data) = some 2 := by
  constructor
  · intro rows pdfName pdfStem
    induction rows with
    | nil => rfl
    | cons p rest ih =>
      obtain ⟨title, r⟩ := p
      by_cases h : ScanKw.titleFallbackHit title pdfName pdfStem = true
      · rw [show ScanKw.fallbackMatchRow ((title, r) :: rest) pdfName pdfStem =
            if ScanKw.titleFallbackHit title pdfName pdfStem then some r
            else ScanKw.fallbackMatchRow rest pdfName pdfStem from rfl]
        rw [if_pos h, List.find?_cons_of_pos rest (by simpa using h)]
        rfl
      · rw [show ScanKw.fallbackMatchRow ((title, r) :: rest) pdfName pdfStem =
            if ScanKw.titleFallbackHit title pdfName pdfStem then some r
            else ScanKw.fallbackMatchRow rest pdfName pdfStem from rfl]
        rw [if_neg h, List.find?_cons_of_neg rest (by simpa using h), ih]
  · decide

/-! ### Country lexicon and inference
(add_affiliation_country_from_pdfs.py, lines 59-109)

`pycountry.countries` is an external dependency; its contents enter as
an abstract registry parameter (dependency injection, as §9 of the
spec prescribes), while the alias overlay, the build order, the
length-descending sort and the matching loop are the repository's
code. -/

namespace AffCountry

/-- The fixed `ALIASES` overlay (lines 59-81), in source order. -/
def ALIASES : List (List Char × List Char) := [
  (("usa").data, ("United States").data),
  (("u.s.a.").data, ("United States").data),
  (("u.s.").data, ("United States").data),
  (("united states of america").data, ("United States").data),
  (("uk").data, ("United Kingdom").data),
  (("u.k.").data, ("United Kingdom").data),
  (("england").data, ("United Kingdom").data),
  (("scotland").data, ("United Kingdom").data),
  (("wales").data, ("United Kingdom").data),
  (("russia").data, ("Russian Federation").data),
  (("south korea").data, ("Korea, Republic of").data),
  (("north korea").data, ("Korea, Democratic People\x27s Republic of").data),
  (("iran").data, ("Iran, Islamic Republic of").data),
  (("tanzania").data, ("Tanzania, United Republic of").data),
  (("viet nam").data, ("Viet Nam").data),
  (("czech republic").data, ("Czechia").data),
  (("bolivia").data, ("Bolivia, Plurinational State of").data),
  (("venezuela").data, ("Venezuela, Bolivarian Republic of").data),
  (("moldova").data, ("Moldova, Republic of").data),
  (("laos").data, ("Lao People\x27s Democratic Republic").data),
  (("syria").data, ("Syrian Arab Republic").data)]

/-- One entry of the external country registry: standard name, and the
optional `official_name` / `common_name` attributes. -/
structure RegEntry where
  name : List Char
  official_name : Option (List Char)
  common_name : Option (List Char)

/-- Python-dict assignment `m[k] = v`: overwrite in place when the key
exists (keeping its insertion position), else append. -/
def dictInsert {β : Type} : List (List Char × β) → List Char → β → List (List Char × β)
  | [], k, v => [(k, v)]
  | (k', v') :: rest, k, v =>
    if k' == k then (k', v) :: rest else (k', v') :: dictInsert rest k v

/-- Registering one registry country (lines 86-91): its lowered
standard, official and common names all map to the standard name. -/
def insertEntry (m : List (List Char × List Char)) (e : RegEntry) :
    List (List Char × List Char) :=
  let m1 := dictInsert m (lowerL e.name) e.name
  let m2 :=
    match e.official_name with
    | some o => dictInsert m1 (lowerL o) e.name
    | none => m1
  match e.common_name with
  | some c => dictInsert m2 (lowerL c) e.name
  | none => m2

/-- The `name_map` of `build_country_matchers` (84-93): registry names
first, then the `ALIASES` overlay (`name_map[k.lower()] = v`). -/
def build_name_map (reg : List RegEntry) : List (List Char × List Char) :=
  ALIASES.foldl (fun m p => dictInsert m (lowerL p.1) p.2) (reg.foldl insertEntry [])

/-- Stable insertion for the length-descending sort: an element goes
before the first strictly-shorter one, so equal lengths keep their
original relative order, exactly like Python's stable
`sorted(key=len, reverse=True)`. -/
def insertByLen (a : List Char) : List (List Char) → List (List Char)
  | [] => [a]
  | b :: l => if b.length ≤ a.length then a :: b :: l else b :: insertByLen a l

def sortLenDesc (l : List (List Char)) : List (List Char) :=
  l.foldr insertByLen []

/-- `build_country_matchers` (84-95). -/
def build_country_matchers (reg : List RegEntry) :
    List (List Char × List Char) × List (List Char) :=
  (build_name_map reg, sortLenDesc ((build_name_map reg).map (fun p => p.1)))

/-- The text cleanup of `infer_country` (lines 101-104): lower, strip,
pad with one space on each side, replace `()[]` braces and `;` by
spaces, collapse whitespace runs. -/
def countryScrub (text : List Char) : List Char :=
  collapseWs ((' ' :: (pyStrip (lowerL text) ++ [' '])).map
    (fun c =>
      if c == '(' || c == ')' || c == '[' || c == ']' ||
          c == '\x7b' || c == '\x7d' || c == ';' then ' ' else c))

/-- `infer_country` (98-109): first key, in length-descending order,
occurring space-delimited in the scrubbed text; its canonical name. -/
def infer_country (text : List Char) (name_map : List (List Char × List Char))
    (keys_sorted : List (List Char)) : List Char :=
  if text.isEmpty then []
  else
    match keys_sorted.find? (fun k => containsSub (' ' :: (k ++ [' '])) (countryScrub text)) with
    | some k => (assocLookup name_map k).getD []
    | none => []

theorem mem_insertByLen (a x : List Char) :
    ∀ l : List (List Char), x ∈ insertByLen a l → x = a ∨ x ∈ l := by
  intro l
  induction l with
  | nil => intro h; simpa [insertByLen] using h
  | cons b rest ih =>
    intro h
    unfold insertByLen at h
    by_cases hb : b.length ≤ a.length
    · rw [if_pos hb] at h
      rcases List.mem_cons.mp h with rfl | h'
      · exact Or.inl rfl
      · exact Or.inr h'
    · rw [if_neg hb] at h
      rcases List.mem_cons.mp h with rfl | h'
      · exact Or.inr (by simp)
      · rcases ih h' with h'' | h''
        · exact Or.inl h''
        · exact Or.inr (by simp [h''])

theorem mem_insertByLen_self (a : List Char) :
    ∀ l : List (List Char), a ∈ insertByLen a l := by
  intro l
  induction l with
  | nil => simp [insertByLen]
  | cons b rest ih =>
    unfold insertByLen
    by_cases hb : b.length ≤ a.length
    · rw [if_pos hb]; simp
    · rw [if_neg hb]; simp [ih]

theorem mem_insertByLen_of_mem (a x : List Char) :
    ∀ l : List (List Char), x ∈ l → x ∈ insertByLen a l := by
  intro l
  induction l with
  | nil => intro h; simp at h
  | cons b rest ih =>
    intro h
    unfold insertByLen
    by_cases hb : b.length ≤ a.length
    · rw [if_pos hb]; simp [h]
    · rw [if_neg hb]
      rcases List.mem_cons.mp h with rfl | h'
      · simp
      · simp [ih h']

theorem pairwise_insertByLen (a : List Char) :
    ∀ l : List (List Char),
      l.Pairwise (fun x y => y.length ≤ x.length) →
      (insertByLen a l).Pairwise (fun x y => y.length ≤ x.length) := by
  intro l
  induction l with
  | nil => intro _; simp [insertByLen]
  | cons b rest ih =>
    intro h
    rw [List.pairwise_cons] at h
    unfold insertByLen
    by_cases hb : b.length ≤ a.length
    · rw [if_pos hb]
      rw [List.pairwise_cons]
      constructor
      · intro x hx
        rcases List.mem_cons.mp hx with rfl | hx'
        · exact hb
        · exact le_trans (h.1 x hx') hb
      · exact List.pairwise_cons.mpr h
    · rw [if_neg hb]
      rw [List.pairwise_cons]
      constructor
      · intro x hx
        rcases mem_insertByLen a x rest hx with rfl | hx'
        · omega
        · exact h.1 x hx'
      · exact ih h.2

theorem sorted_sortLenDesc (l : List (List Char)) :
    (sortLenDesc l).Pairwise (fun x y => y.length ≤ x.length) := by
  induction l with
  | nil => simp [sortLenDesc]
  | cons a rest ih => exact pairwise_insertByLen a _ ih

theorem mem_sortLenDesc (x : List Char) :
    ∀ l : List (List Char), x ∈ sortLenDesc l ↔ x ∈ l := by
  intro l
  induction l with
  | nil => simp [sortLenDesc]
  | cons a rest ih =>
    constructor
    · intro h
      rcases mem_insertByLen a x _ h with rfl | h'
      · simp
      · simp [ih.mp h']
    · intro h
      rcases List.mem_cons.mp h with rfl | h'
      · exact mem_insertByLen_self x _
      · exact mem_insertByLen_of_mem a x _ (ih.mpr h')

theorem dictInsert_lookup_eq {β : Type} (k : List Char) (v : β) :
    ∀ m : List (List Char × β), assocLookup (dictInsert m k v) k = some v := by
  intro m
  induction m with
  | nil => simp [dictInsert, assocLookup, List.find?]
  | cons p rest ih =>
    obtain ⟨k', v'⟩ := p
    unfold dictInsert
    by_cases hk : (k' == k) = true
    · rw [if_pos hk]
      simp [assocLookup, List.find?, hk]
    · rw [if_neg hk]
      simp only [assocLookup, List.find?] at ih ⊢
      rw [show ((k', v').1 == k) = false from by simpa using hk]
      exact ih

theorem dictInsert_lookup_ne {β : Type} (k' k : List Char) (v : β) (h : k' ≠ k) :
    ∀ m : List (List Char × β), assocLookup (dictInsert m k' v) k = assocLookup m k := by
  intro m
  induction m with
  | nil =>
    simp [dictInsert, assocLookup, List.find?, show (k' == k) = false from by simpa using h]
  | cons p rest ih =>
    obtain ⟨k'', v''⟩ := p
    unfold dictInsert
    by_cases hk : (k'' == k') = true
    · rw [if_pos hk]
      have : k'' ≠ k := by
        intro he
        exact h ((by simpa using hk : k'' = k') ▸ he.symm).symm
      simp [assocLookup, List.find?, show (k'' == k) = false from by simpa using this]
    · rw [if_neg hk]
      simp only [assocLookup, List.find?]
      by_cases hk2 : (k'' == k) = true
      · simp [hk2]
      · rw [show ((k'', v'').1 == k) = false from by simpa using hk2]
        exact ih

theorem foldl_dictInsert_skip {β : Type} (k : List Char) :
    ∀ (ps : List (List Char × β)) (m : List (List Char × β)),
      (∀ p ∈ ps, lowerL p.1 ≠ k) →
      assocLookup (ps.foldl (fun m p => dictInsert m (lowerL p.1) p.2) m) k =
        assocLookup m k := by
  intro ps
  induction ps with
  | nil => intro m _; rfl
  | cons p rest ih =>
    intro m hne
    rw [List.foldl_cons]
    rw [ih _ (fun q hq => hne q (by simp [hq]))]
    exact dictInsert_lookup_ne _ _ _ (hne p (by simp)) m

theorem lookup_south_korea (reg : List RegEntry) :
    assocLookup (build_name_map reg) (("south korea").data) =
      some (("Korea, Republic of").data) := by
  unfold build_name_map
  have h1 : ALIASES = ALIASES.take 11 ++ ALIASES.drop 11 := (List.take_append_drop 11 ALIASES).symm
  rw [h1, List.foldl_append]
  rw [foldl_dictInsert_skip (("south korea").data) (ALIASES.drop 11) _ (by decide)]
  have h2 : ALIASES.take 11 =
      ALIASES.take 10 ++ [((("south korea").data), (("Korea, Republic of").data))] := by decide
  rw [h2, List.foldl_append, List.foldl_cons, List.foldl_nil]
  rw [show lowerL (("south korea").data) = (("south korea").data) from by decide]
  exact dictInsert_lookup_eq _ _ _

theorem assocLookup_some_mem_keys {β : Type} (m : List (List Char × β)) (k : List Char) (v : β)
    (h : assocLookup m k = some v) : k ∈ m.map (fun p => p.1) := by
  unfold assocLookup at h
  cases hf : m.find? (fun p => p.1 == k) with
  | none => rw [hf] at h; simp at h
  | some p =>
    have hp := List.find?_some hf
    have hmem := List.mem_of_find?_eq_some hf
    have : p.1 = k := by simpa using hp
    subst this
    exact List.mem_map.mpr ⟨p, hmem, rfl⟩

theorem find?_sorted_maximal (t : List Char) :
    ∀ (ks : List (List Char)),
      ks.Pairwise (fun a b => b.length ≤ a.length) →
      ∀ k0, ks.find? (fun k => containsSub (' ' :: (k ++ [' '])) t) = some k0 →
      ∀ k' ∈ ks, containsSub (' ' :: (k' ++ [' '])) t = true → k'.length ≤ k0.length := by
  intro ks
  induction ks with
  | nil => intro _ k0 h; simp at h
  | cons k rest ih =>
    intro hpw k0 hfind k' hk' hhit
    by_cases hk : containsSub (' ' :: (k ++ [' '])) t = true
    · rw [List.find?_cons_of_pos rest (by simpa using hk)] at hfind
      simp only [Option.some.injEq] at hfind
      subst hfind
      rcases List.mem_cons.mp hk' with rfl | hmem'
      · exact le_refl _
      · exact (List.pairwise_cons.mp hpw).1 _ hmem'
    · rw [List.find?_cons_of_neg rest (by simpa using hk)] at hfind
      rcases List.mem_cons.mp hk' with rfl | hmem'
      · exact absurd hhit hk
      · exact ih (List.pairwise_cons.mp hpw).2 k0 hfind k' hmem' hhit

theorem find_first_sk (t : List Char) :
    ∀ (ks : List (List Char)),
      ks.Pairwise (fun a b => b.length ≤ a.length) →
      (("south korea").data) ∈ ks →
      containsSub (' ' :: ((("south korea").data) ++ [' '])) t = true →
      (∀ k ∈ ks, containsSub (' ' :: (k ++ [' '])) t = true →
        k = (("south korea").data) ∨ k.length < 11) →
      ks.find? (fun k => containsSub (' ' :: (k ++ [' '])) t) =
        some (("south korea").data) := by
  intro ks
  induction ks with
  | nil => intro _ hmem _ _; simp at hmem
  | cons k rest ih =>
    intro hpw hmem hskhit hall
    by_cases hk : containsSub (' ' :: (k ++ [' '])) t = true
    · rw [List.find?_cons_of_pos rest (by simpa using hk)]
      rcases hall k (by simp) hk with rfl | hlen
      · rfl
      · rcases List.mem_cons.mp hmem with rfl | hmem'
        · simp at hlen
        · have hle := (List.pairwise_cons.mp hpw).1 _ hmem'
          have hsk : ((("south korea").data) : List Char).length = 11 := by decide
          omega
    · rw [List.find?_cons_of_neg rest (by simpa using hk)]
      rcases List.mem_cons.mp hmem with rfl | hmem'
      · exact absurd hskhit hk
      · exact ih (List.pairwise_cons.mp hpw).2 hmem' hskhit
          (fun k' h1 h2 => hall k' (by simp [h1]) h2)

end AffCountry

/-- For reference: `build_country_matchers` returns exactly the name
map and its length-descending sorted key list. -/
theorem build_country_matchers_eq (reg : List AffCountry.RegEntry) :
    AffCountry.build_country_matchers reg =
      (AffCountry.build_name_map reg,
        AffCountry.sortLenDesc ((AffCountry.build_name_map reg).map (fun p => p.1))) := rfl

/-- Claim C6: in the lexicon built from any registry overlaid by the
fixed alias table, with keys ordered by length descending, (i) the key
that fires first is always at least as long as every key occurring
space-delimited in the scrubbed text — a shorter alias that is a
substring of a longer present alias never shadows it; (ii) a text
containing "south korea" space-delimited whose every other hitting key
is "south korea" itself or strictly shorter (such as a bare "korea"
key, which the phrase necessarily also makes hit) resolves to
`"Korea, Republic of"` — the shorter "korea" never fires first. -/
theorem c6_longest_match :
    (∀ (reg : List AffCountry.RegEntry) (t : List Char) (k0 : List Char),
      (AffCountry.sortLenDesc ((AffCountry.build_name_map reg).map (fun p => p.1))).find?
          (fun k => containsSub (' ' :: (k ++ [' '])) (AffCountry.countryScrub t)) = some k0 →
      ∀ k' ∈ (AffCountry.build_name_map reg).map (fun p => p.1),
        containsSub (' ' :: (k' ++ [' '])) (AffCountry.countryScrub t) = true →
        k'.length ≤ k0.length) ∧
    (∀ (reg : List AffCountry.RegEntry) (text : List Char),
      text.isEmpty = false →
      containsSub (' ' :: ((("south korea").data) ++ [' ']))
        (AffCountry.countryScrub text) = true →
      (∀ k ∈ (AffCountry.build_name_map reg).map (fun p => p.1),
        containsSub (' ' :: (k ++ [' '])) (AffCountry.countryScrub text) = true →
        k = (("south korea").data) ∨ k.length < 11) →
      AffCountry.infer_country text (AffCountry.build_name_map reg)
        (AffCountry.sortLenDesc ((AffCountry.build_name_map reg).map (fun p => p.1))) =
        ("Korea, Republic of").data) := by
  constructor
  · intro reg t k0 hfind k' hk' hhit
    generalize hM : AffCountry.build_name_map reg = M at hfind hk'
    exact AffCountry.find?_sorted_maximal (AffCountry.countryScrub t)
      (AffCountry.sortLenDesc (M.map (fun p => p.1)))
      (AffCountry.sorted_sortLenDesc (M.map (fun p => p.1)))
      k0 hfind k'
      ((AffCountry.mem_sortLenDesc k' (M.map (fun p => p.1))).mpr hk')
      hhit
  · intro reg text hne hskhit hall
    have hsk := AffCountry.lookup_south_korea reg
    generalize hM : AffCountry.build_name_map reg = M at hsk hall ⊢
    have hskmem := AffCountry.assocLookup_some_mem_keys M
      (("south korea").data) (("Korea, Republic of").data) hsk
    have hfind := AffCountry.find_first_sk (AffCountry.countryScrub text)
      (AffCountry.sortLenDesc (M.map (fun p => p.1)))
      (AffCountry.sorted_sortLenDesc (M.map (fun p => p.1)))
      ((AffCountry.mem_sortLenDesc (("south korea").data)
        (M.map (fun p => p.1))).mpr hskmem)
      hskhit
      (fun k hk hh => hall k
        ((AffCountry.mem_sortLenDesc k (M.map (fun p => p.1))).mp hk) hh)
    unfold AffCountry.infer_country
    rw [if_neg (by simp [hne])]
    simp only [hfind]
    rw [hsk]
    rfl

/-- Witness for C6: a registry holding Canada and a bare "Korea" entry
(so that the shorter key "korea", which the text also hits, is really
present) still resolves a Seoul affiliation to "Korea, Republic of". -/
theorem c6_longest_match_witness :
    AffCountry.infer_country (("Seoul National University, Seoul, South Korea").data)
      (AffCountry.build_name_map
        [⟨("Canada").data, none, none⟩, ⟨("Korea").data, none, none⟩])
      (AffCountry.sortLenDesc
        ((AffCountry.build_name_map
          [⟨("Canada").data, none, none⟩, ⟨("Korea").data, none, none⟩]).map
          (fun p => p.1))) =
      ("Korea, Republic of").data :=
  c6_longest_match.2 [⟨("Canada").data, none, none⟩, ⟨("Korea").data, none, none⟩]
    (("Seoul National University, Seoul, South Korea").data)
    (by decide) (by decide) (by decide)

end MRM
